import Mathlib

/-!
Verification development for the mcx core: a shallow embedding of
`mcx/core/graph.py` (the `GraphicalModel` DAG container and its mutation,
query and rewrite API) and `mcx/core/compiler.py` (graph-to-function
compiler), together with theorems settling the specified properties.

Python mutation is made explicit: operations that mutate a graph in place
return the updated graph; operations that may raise return an `Except` or
pair the final state with an optional error.  Exception classes are
embedded as an error type whose constructors carry the data the source
interpolates into the message, and `errMessage` renders the message string
exactly as the source builds it.
-/

/-- Literal runtime values (Python scalars) that appear as node values,
`do` bindings and non-string argument entries. -/
inductive MLit
| intL (n : Int)
| strL (s : String)
| boolL (b : Bool)
| noneL
deriving DecidableEq, Repr

/-- Fragment of Python `ast` expressions used by the model layer: a
constant (`ast.Constant`), a name reference (`ast.Name`) and a one-argument
call, enough to exercise renaming and source rendering. -/
inductive PExpr
| constE (v : MLit)
| nameE (s : String)
| callE1 (f : String) (a : PExpr)
deriving DecidableEq, Repr

/-- Distribution expression of a `RandVar` node: a call `dfunc(dargs...)`;
`merge_models` renames only the top-level `ast.Name` arguments. -/
structure PDist where
  dfunc : String
  dargs : List PExpr
deriving DecidableEq, Repr

/-- Entry of the `args` list handed to `add_transformation` / `add_randvar`:
a string (a reference to a node name) or a non-string literal. -/
inductive PArg
| ref (s : String)
| lit (v : MLit)
deriving DecidableEq, Repr

def MLit.toSource : MLit → String
| .intL n => toString n
| .strL s => s
| .boolL b => toString b
| .noneL => "None"

def PExpr.toSource : PExpr → String
| .constE v => v.toSource
| .nameE s => s
| .callE1 f a => f ++ "(" ++ a.toSource ++ ")"

def PDist.toSource (d : PDist) : String :=
  d.dfunc ++ "(" ++ String.intercalate ", " (d.dargs.map PExpr.toSource) ++ ")"

/-- Node contents of `graph.py` (the classes of `mcx/core/nodes.py`, which
holds `Argument`, `Var`, `Transformation`, `RandVar`).  Modelled from the
spec where the class bodies are not in `src/`: every content carries its
node name and an `is_returned` flag (`Argument`s are never returned; they
carry an optional default value instead). -/
inductive NodeContent
| argument (aname : String) (default_value : Option MLit)
| varC (vname : String) (value : PExpr) (vret : Bool)
| transf (tname : String) (texpr : PExpr) (targs : List PArg) (tret : Bool)
| randv (rname : String) (rdist : PDist) (rargs : List PArg) (rret : Bool)
deriving DecidableEq, Repr

def NodeContent.isReturnedC : NodeContent → Bool
| .argument _ _ => false
| .varC _ _ r => r
| .transf _ _ _ r => r
| .randv _ _ _ r => r

def NodeContent.nameC : NodeContent → String
| .argument n _ => n
| .varC n _ _ => n
| .transf n _ _ _ => n
| .randv n _ _ _ => n

def NodeContent.isArgumentC : NodeContent → Bool
| .argument _ _ => true
| _ => false

def NodeContent.defaultValueC : NodeContent → Option MLit
| .argument _ d => d
| _ => none

/-- Errors raised by `graph.py`.  The source raises Python builtins; each
constructor records one raise site together with the data interpolated
into its message (the spec names them `UndefinedReferenceError`,
`UnknownNodeError`, `MissingArgumentError`; `nameErrorFmt` is the
`NameError` of `do` / `markov_blanket`, whose format placeholder is never
filled in the source; `typeErrorNotCallable` is the `TypeError` the
interpreter raises at `self.succ(var_name)`, networkx's `succ` being a
non-callable adjacency property). -/
inductive MErr
| syntaxError (offending newName src : String)
| nameErrorFmt
| typeErrorMissing (graphName argName : String)
| typeErrorNotCallable
| indexErrorEmpty
deriving DecidableEq, Repr

/-- Message string of each error, rendered exactly as the source builds it;
in particular `nameErrorFmt` keeps the literal unformatted placeholder
because the source never calls `.format` on it.  (For
`typeErrorNotCallable` the message is the interpreter's, not the source's:
its exact wording names the non-callable view class of the installed
networkx generation, and no theorem relies on this rendering.) -/
def MErr.errMessage : MErr → String
| .syntaxError offending newName src =>
    "The variable " ++ offending ++ " referenced in the expression " ++ newName
      ++ " ~ " ++ src ++ " is undefined"
| .nameErrorFmt => "The specified node \x7b\x7d does not exist."
| .typeErrorMissing graphName argName =>
    graphName ++ " missing one require positional argument: \x27"
      ++ argName ++ "\x27"
| .typeErrorNotCallable => "object is not callable"
| .indexErrorEmpty => "list index out of range"

/-- Embedding of `GraphicalModel` (an `nx.DiGraph` subclass): nodes keyed
by name in insertion order, each carrying an optional `content` attribute
(`none` when the node was created implicitly by `add_edge` and never given
a content), plus the directed edge list in insertion order and the graph
`name` attribute. -/
structure GraphicalModel where
  gname : String
  nodes : List (String × Option NodeContent)
  edges : List (String × String)
deriving DecidableEq, Repr

def GraphicalModel.nodeNames (g : GraphicalModel) : List String :=
  g.nodes.map Prod.fst

/-- Content attribute of a node (first entry with that key, as in a dict). -/
def GraphicalModel.contentAt (g : GraphicalModel) (n : String) : Option NodeContent :=
  match g.nodes.find? (fun p => p.1 = n) with
  | some p => p.2
  | none => none

/-- Reading `nodes[n]["content"].is_returned`; a missing content reads as
not returned (the source would raise `KeyError`, reached only on graphs
left partially constructed by a failed `add_*`). -/
def GraphicalModel.isReturnedAt (g : GraphicalModel) (n : String) : Bool :=
  match g.contentAt n with
  | some c => c.isReturnedC
  | none => false

/-- Predecessor names of `n`, in edge-insertion order (`G.predecessors`). -/
def GraphicalModel.predsOf (g : GraphicalModel) (n : String) : List String :=
  (g.edges.filter (fun e => e.2 = n)).map Prod.fst

/-- Successor names of `n`, in edge-insertion order (`G.successors`). -/
def GraphicalModel.succsOf (g : GraphicalModel) (n : String) : List String :=
  (g.edges.filter (fun e => e.1 = n)).map Prod.snd

/-- Semantics of `nx.DiGraph.add_node(name, content=c)`: update the content
of an existing key in place, else append a fresh node. -/
def GraphicalModel.addNodeContent (g : GraphicalModel) (n : String) (c : NodeContent) :
    GraphicalModel :=
  if n ∈ g.nodeNames then
    { g with nodes := g.nodes.map (fun p => if p.1 = n then (p.1, some c) else p) }
  else
    { g with nodes := g.nodes ++ [(n, some c)] }

/-- Creation of a missing endpoint by `add_edge`: a node keyed `u` with no
content attribute is appended if absent. -/
def GraphicalModel.ensureNode (g : GraphicalModel) (u : String) : GraphicalModel :=
  if u ∈ g.nodeNames then g else { g with nodes := g.nodes ++ [(u, none)] }

/-- Semantics of `nx.DiGraph.add_edge(u, v)`: create missing endpoints
(without a content attribute), then add the edge if not present. -/
def GraphicalModel.addEdge (g : GraphicalModel) (u v : String) : GraphicalModel :=
  if (u, v) ∈ ((g.ensureNode u).ensureNode v).edges then (g.ensureNode u).ensureNode v
  else { (g.ensureNode u).ensureNode v with
    edges := ((g.ensureNode u).ensureNode v).edges ++ [(u, v)] }

/-- `GraphicalModel.add_argument`. -/
def GraphicalModel.add_argument (g : GraphicalModel) (name : String)
    (value : Option MLit) : GraphicalModel :=
  g.addNodeContent name (.argument name value)

/-- `GraphicalModel.add_variable`. -/
def GraphicalModel.add_variable (g : GraphicalModel) (name : String) (value : PExpr)
    (is_ret : Bool := false) : GraphicalModel :=
  g.addNodeContent name (.varC name value is_ret)

/-- String-valued entries of an `args` list, in order. -/
def refsOf (args : List PArg) : List String :=
  args.filterMap (fun a => match a with | .ref s => some s | .lit _ => none)

/-- First string-valued entry of `args` that does not name a node of `g`.
This is the at-call-time membership test the claim describes ("must already
exist in the graph at the time the node is added"); the source instead
tests against the evolving graph, see `evolvingBad`. -/
def firstBadRef (g : GraphicalModel) (args : List PArg) : Option String :=
  (refsOf args).find? (fun s => ¬ s ∈ g.nodeNames)

/-- Transcription of the amended claim's evolving membership test: walking
the string-valued entries left to right, an entry passes when it names an
originally present node, or names the node being added after an earlier
entry has already inserted an edge (which implicitly created that node's
identifier); the first entry passing neither test is returned.  The flag
records whether an edge has been inserted yet. -/
def evolvingBad (origNames : List String) (name : String) :
    List String → Bool → Option String
| [], _ => none
| a :: rest, started =>
    if a ∈ origNames ∨ (started = true ∧ a = name) then
      evolvingBad origNames name rest true
    else some a

/-- Loop body shared by `add_transformation` and `add_randvar`: walk `args`
left to right; a string entry naming an existing node adds an edge, a
string entry naming nothing stops with a `SyntaxError` (leaving the edges
already added in place), non-string entries are skipped.  Returns the graph
reached so far and the error if one was raised. -/
def addRefEdges (g : GraphicalModel) (newName : String) (src : String) :
    List PArg → GraphicalModel × Option MErr
| [] => (g, none)
| .lit _ :: rest => addRefEdges g newName src rest
| .ref a :: rest =>
    if a ∈ g.nodeNames then addRefEdges (g.addEdge a newName) newName src rest
    else (g, some (.syntaxError a newName src))

/-- `GraphicalModel.add_transformation`: reference edges first, then the
`Transformation` content (only on success). -/
def GraphicalModel.add_transformation (g : GraphicalModel) (name : String)
    (expression : PExpr) (args : List PArg) (is_ret : Bool := false) :
    GraphicalModel × Option MErr :=
  match addRefEdges g name expression.toSource args with
  | (g1, none) => (g1.addNodeContent name (.transf name expression args is_ret), none)
  | (g1, some e) => (g1, some e)

/-- `GraphicalModel.add_randvar`: same loop with a `RandVar` content and the
distribution rendered in the message. -/
def GraphicalModel.add_randvar (g : GraphicalModel) (name : String)
    (distribution : PDist) (args : List PArg) (is_ret : Bool := false) :
    GraphicalModel × Option MErr :=
  match addRefEdges g name distribution.toSource args with
  | (g1, none) => (g1.addNodeContent name (.randv name distribution args is_ret), none)
  | (g1, some e) => (g1, some e)

/-- `GraphicalModel.arguments`: names of `Argument`-content nodes in node
order. -/
def GraphicalModel.argumentsQ (g : GraphicalModel) : List String :=
  (g.nodes.filter (fun p => match p.2 with
    | some c => c.isArgumentC
    | none => false)).map Prod.fst

/-- `GraphicalModel.returned_variables`: names of nodes whose content has
`is_returned = True`, in node order. -/
def GraphicalModel.returned_variables (g : GraphicalModel) : List String :=
  (g.nodes.filter (fun p => match p.2 with
    | some c => c.isReturnedC
    | none => false)).map Prod.fst

/-- `GraphicalModel.markov_blanket`: a missing node raises the unformatted
`NameError` (line 78).  For an existing node the source computes
`parents = list(self.predecessors(var_name))` (a method call, fine) and
then evaluates `children = list(self.succ(var_name))` (line 81) — but
`GraphicalModel` subclasses `nx.DiGraph`, which defines `succ` as a
non-callable adjacency-view property, so the call raises `TypeError`.
The parents/children/children's-parents list of lines 80-88 is therefore
never assembled, for any existing node. -/
def GraphicalModel.markov_blanket (g : GraphicalModel) (var_name : String) :
    Except MErr (List String) :=
  if var_name ∈ g.nodeNames then
    .error .typeErrorNotCallable
  else
    .error .nameErrorFmt

/-- `GraphicalModel.mark_as_returned` (sets `is_returned` on the content of
every entry keyed `name`; node keys are unique in graphs built through the
API). -/
def NodeContent.setReturned (c : NodeContent) (b : Bool) : NodeContent :=
  match c with
  | .argument n d => .argument n d
  | .varC n v _ => .varC n v b
  | .transf n e a _ => .transf n e a b
  | .randv n d a _ => .randv n d a b

def GraphicalModel.mark_as_returned (g : GraphicalModel) (name : String) :
    GraphicalModel :=
  { g with nodes := g.nodes.map (fun p =>
      if p.1 = name then (p.1, p.2.map (fun c => c.setReturned true)) else p) }

/-- Undirected adjacency used by `nx.algorithms.weakly_connected_components`:
`a` and `b` are adjacent when an edge joins them in either direction. -/
def GraphicalModel.adjU (g : GraphicalModel) (a b : String) : Prop :=
  (a, b) ∈ g.edges ∨ (b, a) ∈ g.edges

/-- Membership of `a` and `b` in the same weakly connected component. -/
def GraphicalModel.connectedU (g : GraphicalModel) (a b : String) : Prop :=
  Relation.ReflTransGen g.adjU a b

/-- Append an element if not already present. -/
def addNew (seen : List String) (x : String) : List String :=
  if x ∈ seen then seen else seen ++ [x]

/-- One sweep over the edge list, adding every node adjacent to the set
collected so far. -/
def GraphicalModel.growOnce (g : GraphicalModel) (seen : List String) : List String :=
  g.edges.foldl (fun s e =>
    if e.1 ∈ s then addNew s e.2
    else if e.2 ∈ s then addNew s e.1
    else s) seen

def GraphicalModel.growIter (g : GraphicalModel) : Nat → List String → List String
| 0, seen => seen
| k + 1, seen => g.growIter k (g.growOnce seen)

/-- Names weakly connected to `start` (the component of `start`), computed
by iterating `growOnce` to a fixed point; `2 * |edges| + 1` sweeps suffice
because each non-stable sweep strictly grows a duplicate-free list drawn
from `start` and the edge endpoints. -/
def GraphicalModel.reachableU (g : GraphicalModel) (start : String) : List String :=
  g.growIter (2 * g.edges.length + 1) [start]

/-- Keep-condition of the component pruning in `do`: the component of `n`
contains a node whose content is returned. -/
def GraphicalModel.keepNode (g : GraphicalModel) (n : String) : Bool :=
  (g.reachableU n).any (fun m => g.isReturnedAt m)

/-- Induced subgraph on the kept nodes (`nx.subgraph(new_model, nodes_to_keep)`,
where the source keeps exactly the components containing a returned node;
node order follows the underlying graph). -/
def GraphicalModel.pruneToReturned (g : GraphicalModel) : GraphicalModel :=
  { gname := g.gname
    nodes := g.nodes.filter (fun p => g.keepNode p.1)
    edges := g.edges.filter (fun e => g.keepNode e.1 && g.keepNode e.2) }

/-- Body of one `do` binding applied to the working copy: replace the
node's content by a `Var` holding `ast.Constant(value)` (not returned) and
remove every incoming edge. -/
def GraphicalModel.applyBinding (g : GraphicalModel) (name : String) (value : MLit) :
    GraphicalModel :=
  { g with
    nodes := g.nodes.map (fun p =>
      if p.1 = name then (p.1, some (.varC name (.constE value) false)) else p)
    edges := g.edges.filter (fun e => e.2 ≠ name) }

/-- `GraphicalModel.do`, acting on the copy: each binding first checks
membership in the receiver (`self.nodes`), raising the unformatted
`NameError` otherwise, then rewrites the copy; afterwards the components
without a returned node are pruned. -/
def GraphicalModel.doPure (g : GraphicalModel) (bindings : List (String × MLit)) :
    Except MErr GraphicalModel := do
  let newModel ← bindings.foldlM (fun nm p =>
    if p.1 ∈ g.nodeNames then Except.ok (nm.applyBinding p.1 p.2)
    else Except.error MErr.nameErrorFmt) g
  Except.ok newModel.pruneToReturned

/-- `do` with the receiver threaded through: the source copies `self`
before any rewrite (`new_model = self.copy()`; replacing a content
reference in the copied attribute dict and removing edges of the copy
leave the receiver untouched), so the receiver after the call is returned
unchanged alongside the result. -/
def GraphicalModel.doRun (g : GraphicalModel) (bindings : List (String × MLit)) :
    GraphicalModel × Except MErr GraphicalModel :=
  (g, g.doPure bindings)

/-- Renaming of name references inside an expression.  Modelled from the
spec: `relabel_arguments` lives in `mcx/core/utils.py`, which is not under
`src/`; the spec states the renaming is applied consistently to every
expression that references the renamed names. -/
def PExpr.renameRefs (f : String → String) : PExpr → PExpr
| .constE v => .constE v
| .nameE s => .nameE (f s)
| .callE1 fn a => .callE1 fn (a.renameRefs f)

/-- Renaming of a distribution as `merge_models` performs it inline: only
the top-level `ast.Name` arguments are renamed. -/
def PDist.renameTopArgs (f : String → String) (d : PDist) : PDist :=
  { d with dargs := d.dargs.map (fun a => match a with
      | .nameE s => .nameE (f s)
      | other => other) }

def PArg.renameRef (f : String → String) : PArg → PArg
| .ref s => .ref (f s)
| .lit v => .lit v

/-- Combined in-place content mutation performed by `merge_models` on every
node content of the merged graph (shared by reference with the passed-in
sub-graph): the internal `name` field is set to the relabelled node key,
and for `Transformation` / `RandVar` contents the `args` entries and the
expression / distribution are renamed. -/
def NodeContent.mergeRename (f : String → String) (newName : String) :
    NodeContent → NodeContent
| .argument _ d => .argument newName d
| .varC _ v r => .varC newName v r
| .transf _ e a r => .transf newName (e.renameRefs f) (a.map (PArg.renameRef f)) r
| .randv _ d a r => .randv newName (d.renameTopArgs f) (a.map (PArg.renameRef f)) r

/-- Positional value supplied to `merge_models` for a sub-model argument:
the source accepts an `int` (becoming an `ast.Constant`) or a `str`
(becoming an `ast.Name` reference to an outer node). -/
inductive MergeArg
| mi (n : Int)
| ms (s : String)
deriving DecidableEq, Repr

def MergeArg.toPExpr : MergeArg → PExpr
| .mi n => .constE (.intL n)
| .ms s => .nameE s

/-- Semantics of `nx.DiGraph.remove_node`: drop the node and its incident
edges. -/
def GraphicalModel.removeNode (g : GraphicalModel) (n : String) : GraphicalModel :=
  { g with
    nodes := g.nodes.filter (fun p => p.1 ≠ n)
    edges := g.edges.filter (fun e => e.1 ≠ n && e.2 ≠ n) }

def GraphicalModel.defaultValueAt (g : GraphicalModel) (n : String) : Option MLit :=
  match g.contentAt n with
  | some c => c.defaultValueC
  | none => none

/-- Semantics of `nx.compose(G, H)`: node and edge sets are united; for
shared nodes the attributes of `H` override those of `G`; graph attributes
(the `name`) are taken from `G` then overridden by `H`. -/
def composeG (G H : GraphicalModel) : GraphicalModel :=
  { gname := H.gname
    nodes := G.nodes.map (fun p =>
        if p.1 ∈ H.nodeNames then
          (p.1, match H.contentAt p.1 with | some c => some c | none => p.2)
        else p)
      ++ H.nodes.filter (fun p => ¬ p.1 ∈ G.nodeNames)
    edges := G.edges ++ H.edges.filter (fun e => ¬ e ∈ G.edges) }

/-- Partial-application loop of `merge_models` over the snapshot of the
merged graph's argument names: a supplied positional value replaces the
argument node by a fresh `Var`; a missing value without a default raises
the `TypeError`. -/
def mergeArgsLoop (margs : List MergeArg) :
    GraphicalModel → Nat → List String → Except MErr GraphicalModel
| mg, _, [] => .ok mg
| mg, i, a :: rest =>
    if i < margs.length then
      mergeArgsLoop margs
        ((mg.removeNode a).add_variable a (margs.getD i (.mi 0)).toPExpr) (i + 1) rest
    else
      match mg.defaultValueAt a with
      | none => .error (.typeErrorMissing mg.gname a)
      | some _ => mergeArgsLoop margs mg (i + 1) rest

/-- `GraphicalModel.merge_models` with the mutation of the passed-in
sub-graph made explicit.  The call returns `((self_after, sub_after),
result)`.  The source first clears `is_returned` on the sub-graph's first
returned node (an in-place write to a content object the caller still
owns), relabels the nodes (`nx.relabel_nodes` copies the graph structure
but shares the content objects), then mutates every shared content's
internal name, `args` and expressions; hence `sub_after` keeps its node
keys and edges but carries the mutated contents.  The receiver is only
read (`nx.compose` builds a new graph), so `self_after = self`. -/
def GraphicalModel.mergeModelsRun (self sub : GraphicalModel) (var_name : String)
    (margs : List MergeArg) :
    (GraphicalModel × GraphicalModel) × Except MErr GraphicalModel :=
  match sub.returned_variables with
  | [] => ((self, sub), .error .indexErrorEmpty)
  | nameReturned :: _ =>
    let sub1 : GraphicalModel := { sub with nodes := sub.nodes.map (fun p =>
      if p.1 = nameReturned then (p.1, p.2.map (fun c => c.setReturned false)) else p) }
    let mapping : String → String := fun n =>
      if n = nameReturned then var_name else n ++ "_" ++ sub.gname
    let subAfter : GraphicalModel := { sub1 with nodes := sub1.nodes.map (fun p =>
      (p.1, p.2.map (NodeContent.mergeRename mapping (mapping p.1)))) }
    let mg1 : GraphicalModel :=
      { gname := sub.gname
        nodes := sub1.nodes.map (fun p =>
          (mapping p.1, p.2.map (NodeContent.mergeRename mapping (mapping p.1))))
        edges := sub1.edges.map (fun e => (mapping e.1, mapping e.2)) }
    match mergeArgsLoop margs mg1 0 mg1.argumentsQ with
    | .error e => ((self, subAfter), .error e)
    | .ok mgFinal => ((self, subAfter), .ok (composeG mgFinal self))

/-- Nodes of the compiler's graph (`mcx/core/nodes.py` is not under `src/`;
the variants and fields are modelled from the spec: `Constant`, `Op` and
`Placeholder`/`Argument` contents, each carrying an optional name, an
`is_returned` flag, and for placeholders the `is_random_variable` and
`has_default` flags; placeholders always have a name). -/
inductive CNode
| constant (cname : Option String) (value : MLit) (cret : Bool)
| op (oname : Option String) (opId : Nat) (oret : Bool)
| placeholder (pname : String) (is_random_variable : Bool) (has_default : Bool)
    (pret : Bool)
deriving DecidableEq, Repr

def CNode.nameOf : CNode → Option String
| .constant n _ _ => n
| .op n _ _ => n
| .placeholder n _ _ _ => some n

def CNode.isReturnedN : CNode → Bool
| .constant _ _ r => r
| .op _ _ r => r
| .placeholder _ _ _ r => r

def CNode.isOpN : CNode → Bool
| .op _ _ _ => true
| _ => false

def CNode.isConstantN : CNode → Bool
| .constant _ _ _ => true
| _ => false

def CNode.isPlaceholderN : CNode → Bool
| .placeholder _ _ _ _ => true
| _ => false

def CNode.isRVN : CNode → Bool
| .placeholder _ rv _ _ => rv
| _ => false

def CNode.hasDefaultN : CNode → Bool
| .placeholder _ _ hd _ => hd
| _ => false

def CNode.isRngKeyN (nd : CNode) : Bool :=
  nd.nameOf = some "rng_key"

/-- Typed edge payload: a positional edge carries the slot indices the
predecessor fills, a keyword edge the keyword names. -/
inductive CEdgeData
| argE (positions : List Nat)
| kwE (keys : List String)
deriving DecidableEq, Repr

structure CEdge where
  src : Nat
  dst : Nat
  data : CEdgeData
deriving DecidableEq, Repr

def CEdge.positionsOf (e : CEdge) : List Nat :=
  match e.data with
  | .argE l => l
  | .kwE _ => []

/-- Compiler-side graph: nodes indexed by position in insertion order,
edges between indices.  The topological walk of `compile_graph` is the
node-list order; claims that rely on the walk being topological take the
`edgesOk` hypothesis below. -/
structure CGraph where
  nodes : List CNode
  edges : List CEdge
deriving DecidableEq, Repr

/-- Well-formedness hypothesis making the node-list order a topological
order (every DAG can be listed this way; `nx.topological_sort` computes
such an order). -/
def CGraph.edgesOk (g : CGraph) : Prop :=
  ∀ e ∈ g.edges, e.src < e.dst ∧ e.dst < g.nodes.length

instance (g : CGraph) : Decidable g.edgesOk :=
  List.decidableBAll _ g.edges

def CGraph.nodeAt (g : CGraph) (i : Nat) : CNode :=
  g.nodes.getD i (.constant none .noneL false)

/-- Incoming edges of node `v` in edge-insertion order (`graph.predecessors`
together with the edge payload `graph[predecessor][node]`). -/
def CGraph.predEdges (g : CGraph) (v : Nat) : List CEdge :=
  g.edges.filter (fun e => e.dst = v)

/-- Compiled expressions (`libcst` trees): a literal, a name reference, or
a reified application of an `Op`'s expression-production capability to
positional and keyword operand expressions. -/
inductive CExpr
| litE (v : MLit)
| nameRef (s : String)
| callE (opId : Nat) (args : List CExpr) (kwargs : List (String × CExpr))

/-- Expression-production capability of a node (`cst_generator`).  Modelled
from the spec: a `Constant` yields its literal, an `Op` composes its
operands, a `Placeholder` yields a reference to its own name. -/
def nodeGen (nd : CNode) (args : List CExpr) (kwargs : List (String × CExpr)) : CExpr :=
  match nd with
  | .constant _ v _ => .litE v
  | .op _ opId _ => .callE opId args kwargs
  | .placeholder n _ _ _ => .nameRef n

/-- Compiler errors: `duplicateArgument` is the
`IndexError("Duplicate argument position")` raised by `compile_op` (the
spec's `DuplicateArgumentError`); `fuelExhausted` is an artifact of the
fuel-indexed recursion and is never produced when the graph satisfies
`edgesOk` (proved below). -/
inductive CErr
| duplicateArgument
| fuelExhausted
deriving DecidableEq, Repr

/-- Python dict assignment `op_kwargs[key] = v`: replace in place if the
key exists (keeping its position), else append. -/
def insertKw (l : List (String × CExpr)) (k : String) (v : CExpr) :
    List (String × CExpr) :=
  if l.any (fun p => p.1 = k) then l.map (fun p => if p.1 = k then (k, v) else p)
  else l ++ [(k, v)]

/-- Loop `for idx in edge["position"]`: raise on a slot index already
claimed, else record the operand under the slot. -/
def addArgSlots (positions : List Nat) (predAst : CExpr)
    (oa : List (Nat × CExpr)) : Except CErr (List (Nat × CExpr)) :=
  positions.foldlM (fun acc idx =>
    if acc.any (fun p => p.1 = idx) then Except.error CErr.duplicateArgument
    else Except.ok (acc ++ [(idx, predAst)])) oa

/-- Body of `compile_op`'s predecessor loop for one incoming edge, with the
recursive compilation of unnamed predecessors abstracted as `rec`: a named
predecessor is referenced by name, an unnamed one is expanded in place;
then the edge payload is folded into the positional-slot map or the
keyword map. -/
def predStep (g : CGraph) (rec : Nat → Except CErr CExpr)
    (acc : List (Nat × CExpr) × List (String × CExpr)) (e : CEdge) :
    Except CErr (List (Nat × CExpr) × List (String × CExpr)) := do
  let predAst ← match (g.nodeAt e.src).nameOf with
    | some n => Except.ok (CExpr.nameRef n)
    | none => rec e.src
  match e.data with
  | .argE positions => do
      let oa ← addArgSlots positions predAst acc.1
      Except.ok (oa, acc.2)
  | .kwE keys =>
      Except.ok (acc.1, keys.foldl (fun kw k => insertKw kw k predAst) acc.2)

/-- Fuel-indexed `compile_op`: fold the predecessor edges, then apply the
node's expression-production capability to the positional operands in
ascending slot order (`sorted(op_args.keys())`) and the keyword operands. -/
def compileOpF (g : CGraph) : Nat → Nat → Except CErr CExpr
| 0, _ => .error .fuelExhausted
| fuel + 1, v => do
  let acc ← (g.predEdges v).foldlM (predStep g (compileOpF g fuel)) ([], [])
  Except.ok (nodeGen (g.nodeAt v)
    ((List.insertionSort (fun a b => a.1 ≤ b.1) acc.1).map Prod.snd) acc.2)

/-- `compile_op` on node `v`; recursion descends along strictly smaller
predecessor indices, so fuel `v + 1` never runs out on `edgesOk` graphs. -/
def compileOp (g : CGraph) (v : Nat) : Except CErr CExpr :=
  compileOpF g (v + 1) v

/-- Slot/keyword collection of `compile_op` expressed with the top-level
`compileOp` for the recursive expansions (shown below to agree with the
fold inside `compileOpF` on `edgesOk` graphs). -/
def collectOpArgs (g : CGraph) (v : Nat) :
    Except CErr (List (Nat × CExpr) × List (String × CExpr)) :=
  (g.predEdges v).foldlM (predStep g (compileOp g)) ([], [])

/-- Statements of the generated function body. -/
inductive CStmt
| assign (target : String) (value : CExpr)
| ret (rname : String)

def CStmt.targetName : CStmt → Option String
| .assign t _ => some t
| .ret _ => none

def CStmt.retName : CStmt → Option String
| .ret n => some n
| .assign _ _ => none

/-- One iteration of the topological walk of `compile_graph` (lines 44-76):
unnamed nodes are skipped; a named `Constant` emits a binding of its
literal; a named `Op` emits a binding of its compiled expression and, when
returned, queues a return statement; placeholders emit nothing. -/
def compileStep (g : CGraph) (acc : List CStmt × List CStmt) (p : Nat × CNode) :
    Except CErr (List CStmt × List CStmt) :=
  match p.2 with
  | .constant (some n) v _ => Except.ok (acc.1 ++ [.assign n (.litE v)], acc.2)
  | .op (some n) _ r => do
      let e ← compileOp g p.1
      Except.ok (acc.1 ++ [.assign n e], if r then acc.2 ++ [.ret n] else acc.2)
  | _ => Except.ok acc

/-- Binding and return statements of the compiled function, produced by
walking the nodes in (topological) list order. -/
def compileStmts (g : CGraph) : Except CErr (List CStmt × List CStmt) :=
  g.nodes.enum.foldlM (compileStep g) ([], [])

/-- Function body as assembled at line 84: bindings then returns. -/
def compileBody (g : CGraph) : Except CErr (List CStmt) :=
  (compileStmts g).map (fun p => p.1 ++ p.2)

/-- Placeholder nodes with their indices, in graph-insertion order.
Modelled from the spec: the `graph.placeholders` property is not under
`src/`; the spec describes it as the `Argument` nodes in insertion order. -/
def CGraph.placeholdersIdx (g : CGraph) : List (Nat × CNode) :=
  g.nodes.enum.filter (fun p => p.2.isPlaceholderN)

/-- `compile_placeholder`: the parameter produced from a placeholder node —
its name applied to the zero-operand expressions of its predecessors (the
compiled default values). -/
def compilePlaceholder (g : CGraph) (p : Nat × CNode) : String × List CExpr :=
  (p.2.nameOf.getD "", (g.predEdges p.1).map (fun e => nodeGen (g.nodeAt e.src) [] []))

def CGraph.maybeRngKeyNodes (g : CGraph) : List (Nat × CNode) :=
  g.placeholdersIdx.filter (fun p => p.2.isRngKeyN)

def CGraph.modelArgsNodes (g : CGraph) : List (Nat × CNode) :=
  g.placeholdersIdx.filter (fun p =>
    !p.2.isRVN && !p.2.isRngKeyN && !p.2.hasDefaultN)

/-- The source iterates `reversed(list(graph.placeholders))` and keeps the
random-variable placeholders. -/
def CGraph.maybeRandomVariableNodes (g : CGraph) : List (Nat × CNode) :=
  g.placeholdersIdx.reverse.filter (fun p => p.2.isRVN)

def CGraph.modelKwargsNodes (g : CGraph) : List (Nat × CNode) :=
  g.placeholdersIdx.filter (fun p =>
    !p.2.isRVN && !p.2.isRngKeyN && p.2.hasDefaultN)

/-- Parameter list of the compiled function in the order assembled at line
37: `maybe_rng_key + model_args + maybe_random_variables + model_kwargs`. -/
def CGraph.paramNodes (g : CGraph) : List (Nat × CNode) :=
  g.maybeRngKeyNodes ++ g.modelArgsNodes ++ g.maybeRandomVariableNodes
    ++ g.modelKwargsNodes

/-- Compiled parameters exactly as the four comprehensions build them (each
group mapped through `compile_placeholder`). -/
def CGraph.compiledParams (g : CGraph) : List (String × List CExpr) :=
  g.maybeRngKeyNodes.map (compilePlaceholder g)
    ++ g.modelArgsNodes.map (compilePlaceholder g)
    ++ g.maybeRandomVariableNodes.map (compilePlaceholder g)
    ++ g.modelKwargsNodes.map (compilePlaceholder g)

/-- Parameter order transcribed from the claim's words: generator-state
slot, then no-default non-generator non-random-variable arguments in
insertion order, then random-variable inputs in reverse insertion order,
then all arguments with a default in insertion order. -/
def CGraph.specParamNodesClaim (g : CGraph) : List (Nat × CNode) :=
  g.placeholdersIdx.filter (fun p => p.2.isRngKeyN)
    ++ g.placeholdersIdx.filter (fun p =>
        !p.2.hasDefaultN && !p.2.isRngKeyN && !p.2.isRVN)
    ++ (g.placeholdersIdx.filter (fun p => p.2.isRVN)).reverse
    ++ g.placeholdersIdx.filter (fun p => p.2.hasDefaultN)

/-- Parameter order per the amended claim: the defaulted group excludes the
generator-state slot and the random-variable inputs. -/
def CGraph.specParamNodesAmended (g : CGraph) : List (Nat × CNode) :=
  g.placeholdersIdx.filter (fun p => p.2.isRngKeyN)
    ++ g.placeholdersIdx.filter (fun p =>
        !p.2.hasDefaultN && !p.2.isRngKeyN && !p.2.isRVN)
    ++ (g.placeholdersIdx.filter (fun p => p.2.isRVN)).reverse
    ++ g.placeholdersIdx.filter (fun p =>
        p.2.hasDefaultN && !p.2.isRngKeyN && !p.2.isRVN)

/-- Names referenced inside a compiled expression (a binding's right-hand
side references exactly these). -/
def CExpr.freeNames : CExpr → List String
| .litE _ => []
| .nameRef s => [s]
| .callE _ args kwargs =>
    (args.attach.flatMap (fun p => p.1.freeNames))
      ++ (kwargs.attach.flatMap (fun p => p.1.2.freeNames))
decreasing_by
· have h := List.sizeOf_lt_of_mem p.2
  simp only [CExpr.callE.sizeOf_spec]
  omega
· have h := List.sizeOf_lt_of_mem p.2
  have h2 : sizeOf p.1.2 < sizeOf p.1 := by
    obtain ⟨a, b⟩ := p.1
    simp only [Prod.mk.sizeOf_spec]
    omega
  simp only [CExpr.callE.sizeOf_spec]
  omega

/-- Names referenced by one emitted statement. -/
def CStmt.refNames : CStmt → List String
| .assign _ e => e.freeNames
| .ret n => [n]

/-- Executable transcription of claim C2 at one graph (the conjuncts needed
to test it): every named node gets exactly one binding statement, and every
node marked returned gets an output statement. -/
def claimC2Check (g : CGraph) : Bool :=
  match compileStmts g with
  | .ok (stmts, rets) =>
      (g.nodes.enum.all (fun p => match p.2.nameOf with
        | some n => (stmts.filter (fun s => s.targetName = some n)).length = 1
        | none => true))
      && (g.nodes.enum.all (fun p =>
        !p.2.isReturnedN || rets.any (fun s => s.retName = p.2.nameOf)))
  | .error _ => false

def claimC2At (g : CGraph) : Prop :=
  claimC2Check g = true

/-- Executable transcription of claim C3 at one graph and one binding: the
result contains the bound node, carrying a constant content and no
incoming edges. -/
def claimC3Check (g : GraphicalModel) (bindings : List (String × MLit))
    (name : String) (value : MLit) : Bool :=
  match g.doPure bindings with
  | .ok r =>
      r.contentAt name = some (.varC name (.constE value) false)
      && r.predsOf name = ([] : List String)
  | .error _ => false

def claimC3At (g : GraphicalModel) (bindings : List (String × MLit))
    (name : String) (value : MLit) : Prop :=
  claimC3Check g bindings name value = true

/-- Executable transcription of claim C10's consequent at one call: when
the reference loop fails, the new node's identifier already exists,
carrying no content. -/
def claimC10Check (g : GraphicalModel) (name : String) (expression : PExpr)
    (args : List PArg) : Bool :=
  match g.add_transformation name expression args with
  | (_, none) => true
  | (g1, some _) => name ∈ g1.nodeNames && g1.nodes.lookup name = some none

def claimC10At (g : GraphicalModel) (name : String) (expression : PExpr)
    (args : List PArg) : Prop :=
  claimC10Check g name expression args = true

/-- Nodes for which the topological walk emits a binding statement: named
`Constant` and `Op` nodes (named placeholders and unnamed nodes emit
nothing). -/
def emitsBinding (nd : CNode) : Bool :=
  nd.nameOf.isSome && (nd.isConstantN || nd.isOpN)

/-- Nodes for which the topological walk emits a return statement: named
`Op` nodes marked returned (a returned `Constant` emits none). -/
def emitsReturn (nd : CNode) : Bool :=
  nd.isOpN && nd.nameOf.isSome && nd.isReturnedN

/-- Two different predecessors of `v` claim the same positional slot
index. -/
def dupSlotClaim (g : CGraph) (v : Nat) : Prop :=
  ∃ e1 ∈ g.predEdges v, ∃ e2 ∈ g.predEdges v,
    e1.src ≠ e2.src ∧ ∃ k ∈ e1.positionsOf, k ∈ e2.positionsOf

instance : IsTotal (Nat × CExpr) (fun a b => a.1 ≤ b.1) :=
  ⟨fun a b => Nat.le_total a.1 b.1⟩

instance : IsTrans (Nat × CExpr) (fun a b => a.1 ≤ b.1) :=
  ⟨fun _ _ _ hab hbc => Nat.le_trans hab hbc⟩

/-- Universe of names `growOnce` can ever collect starting from `start`:
the start name and the edge endpoints. -/
def GraphicalModel.endPoints (g : GraphicalModel) (start : String) : List String :=
  start :: g.edges.flatMap (fun e => [e.1, e.2])

/-- Statement emitted by the walk for one enumerated node, if any (named
`Constant` and `Op` nodes only; for an `Op` the statement exists when its
expression compiles). -/
def emitStmt (g : CGraph) (p : Nat × CNode) : Option CStmt :=
  match p.2 with
  | .constant (some n) v _ => some (.assign n (.litE v))
  | .op (some n) _ _ =>
      match compileOp g p.1 with
      | .ok e => some (.assign n e)
      | .error _ => none
  | _ => none

/-- Return statement queued by the walk for one enumerated node, if any. -/
def emitRet (p : Nat × CNode) : Option CStmt :=
  match p.2 with
  | .op (some n) _ r => if r then some (.ret n) else none
  | _ => none

/-- Binding statements paired with the index of the node that produced
them, in walk order. -/
def idxStmts (g : CGraph) : List (Nat × CStmt) :=
  g.nodes.enum.filterMap (fun p => (emitStmt g p).map (fun st => (p.1, st)))

/-! ## Theorems -/

/-- C1 (counterexample): on a graph whose single placeholder is flagged
`is_random_variable` and carries a default, the claim's concatenation lists
the placeholder twice (once in the random-variable group and once in the
defaulted group) while the compiler's parameter list contains it once: the
source excludes random-variable and generator-state placeholders from the
defaulted group. -/
theorem c1_param_order_claim_fails :
    CGraph.specParamNodesClaim ⟨[.placeholder "x" true true false], []⟩ ≠
      CGraph.paramNodes ⟨[.placeholder "x" true true false], []⟩ := by
  decide

/-- C1 (amended): the compiled parameter list is the concatenation of the
generator-state slot, the required arguments in insertion order, the
random-variable inputs in reverse insertion order, and the defaulted
arguments that are neither the generator-state slot nor random-variable
inputs, in insertion order; each parameter is produced by
`compile_placeholder`. -/
theorem c1_param_order (g : CGraph) :
    g.specParamNodesAmended = g.paramNodes
    ∧ g.compiledParams = g.paramNodes.map (compilePlaceholder g) := by
  constructor
  · have h2 : List.filter (fun p : Nat × CNode =>
        !p.2.hasDefaultN && !p.2.isRngKeyN && !p.2.isRVN) g.placeholdersIdx
        = List.filter (fun p : Nat × CNode =>
        !p.2.isRVN && !p.2.isRngKeyN && !p.2.hasDefaultN) g.placeholdersIdx :=
      List.filter_congr (fun x _ => by
        cases h1 : x.2.hasDefaultN <;> cases hb : x.2.isRngKeyN <;>
          cases h3 : x.2.isRVN <;> simp [h1, hb, h3])
    have h3 : (List.filter (fun p : Nat × CNode => p.2.isRVN) g.placeholdersIdx).reverse
        = List.filter (fun p : Nat × CNode => p.2.isRVN) g.placeholdersIdx.reverse := by
      rw [List.filter_reverse]
    have h4 : List.filter (fun p : Nat × CNode =>
        p.2.hasDefaultN && !p.2.isRngKeyN && !p.2.isRVN) g.placeholdersIdx
        = List.filter (fun p : Nat × CNode =>
        !p.2.isRVN && !p.2.isRngKeyN && p.2.hasDefaultN) g.placeholdersIdx :=
      List.filter_congr (fun x _ => by
        cases h1 : x.2.hasDefaultN <;> cases hb : x.2.isRngKeyN <;>
          cases h3 : x.2.isRVN <;> simp [h1, hb, h3])
    unfold CGraph.specParamNodesAmended CGraph.paramNodes CGraph.maybeRngKeyNodes
      CGraph.modelArgsNodes CGraph.maybeRandomVariableNodes CGraph.modelKwargsNodes
    rw [h2, h3, h4]
  · unfold CGraph.compiledParams CGraph.paramNodes
    simp [List.map_append]

theorem compileStmts_fold (g : CGraph) :
    ∀ (l : List (Nat × CNode)) (acc out : List CStmt × List CStmt),
    l.foldlM (compileStep g) acc = Except.ok out →
    out.1.map CStmt.targetName
      = acc.1.map CStmt.targetName
        ++ ((l.map Prod.snd).filter emitsBinding).map CNode.nameOf
    ∧ out.2.map CStmt.retName
      = acc.2.map CStmt.retName
        ++ ((l.map Prod.snd).filter emitsReturn).map CNode.nameOf := by
  intro l
  induction l with
  | nil =>
    intro acc out h
    simp only [List.foldlM_nil] at h
    cases h
    simp
  | cons hd t ih =>
    intro acc out h
    simp only [List.foldlM_cons] at h
    obtain ⟨i, nd⟩ := hd
    cases nd with
    | constant cn v r =>
      cases cn with
      | some n =>
        simp only [compileStep, Bind.bind, Except.bind] at h
        have := ih _ _ h
        simpa [emitsBinding, emitsReturn, CNode.nameOf, CNode.isConstantN,
          CNode.isOpN, CNode.isReturnedN, CStmt.targetName, CStmt.retName]
          using this
      | none =>
        simp only [compileStep, Bind.bind, Except.bind] at h
        have := ih _ _ h
        simpa [emitsBinding, emitsReturn, CNode.nameOf] using this
    | op onm opId r =>
      cases onm with
      | some n =>
        simp only [compileStep] at h
        cases hop : compileOp g i with
        | ok e =>
          rw [hop] at h
          simp only [Bind.bind, Except.bind] at h
          have := ih _ _ h
          cases r with
          | true =>
            simpa [emitsBinding, emitsReturn, CNode.nameOf, CNode.isConstantN,
              CNode.isOpN, CNode.isReturnedN, CStmt.targetName, CStmt.retName]
              using this
          | false =>
            simpa [emitsBinding, emitsReturn, CNode.nameOf, CNode.isConstantN,
              CNode.isOpN, CNode.isReturnedN, CStmt.targetName, CStmt.retName]
              using this
        | error er =>
          rw [hop] at h
          simp only [Bind.bind, Except.bind] at h
          exact absurd h (by
            clear h
            induction t generalizing acc with
            | nil => intro hcon; simp [List.foldlM_nil] at hcon
            | cons h2 t2 ih2 => intro hcon; simp [List.foldlM_cons, Bind.bind, Except.bind] at hcon)
      | none =>
        simp only [compileStep, Bind.bind, Except.bind] at h
        have := ih _ _ h
        simpa [emitsBinding, emitsReturn, CNode.nameOf] using this
    | placeholder pn rv hdef pr =>
      simp only [compileStep, Bind.bind, Except.bind] at h
      have := ih _ _ h
      simpa [emitsBinding, emitsReturn, CNode.nameOf, CNode.isConstantN,
        CNode.isOpN] using this

/-- C2 (counterexample): on a graph whose single node is a named `Constant`
marked returned, the walk emits its binding but no output statement — the
source queues returns only inside the `Op` branch, so the claim's
"for every node marked is_returned" fails. -/
theorem c2_lowering_claim_fails :
    ¬ claimC2At ⟨[.constant (some "x") (.intL 1) true], []⟩ := by
  unfold claimC2At
  decide

/-- C2 (amended): in the emitted statement list, the binding targets are
exactly the named `Constant` and `Op` nodes in topological-walk order (one
binding each; placeholders and unnamed nodes emit nothing), and the output
statements are exactly the named `Op` nodes marked returned, in the order
encountered by the walk. -/
theorem c2_lowering (g : CGraph) (stmts rets : List CStmt)
    (h : compileStmts g = Except.ok (stmts, rets)) :
    stmts.map CStmt.targetName = (g.nodes.filter emitsBinding).map CNode.nameOf
    ∧ rets.map CStmt.retName = (g.nodes.filter emitsReturn).map CNode.nameOf := by
  have := compileStmts_fold g g.nodes.enum ([], []) (stmts, rets) h
  simpa [List.enum_map_snd] using this

/-- C2 (witness): the amended lowering theorem evaluated on a two-node
graph (a named constant feeding a named, returned op). -/
theorem c2_lowering_witness :
    ([CStmt.assign "a" (.litE (.intL 2)),
      CStmt.assign "b" (.callE 7 [.nameRef "a"] [])].map CStmt.targetName
      = (([.constant (some "a") (.intL 2) false, .op (some "b") 7 true] :
          List CNode).filter emitsBinding).map CNode.nameOf)
    ∧ ([CStmt.ret "b"].map CStmt.retName
      = (([.constant (some "a") (.intL 2) false, .op (some "b") 7 true] :
          List CNode).filter emitsReturn).map CNode.nameOf) :=
  c2_lowering ⟨[.constant (some "a") (.intL 2) false, .op (some "b") 7 true],
    [⟨0, 1, .argE [0]⟩]⟩ _ _ rfl

theorem mem_predsOf (g : GraphicalModel) (m n : String) :
    m ∈ g.predsOf n ↔ (m, n) ∈ g.edges := by
  unfold GraphicalModel.predsOf
  simp only [List.mem_map, List.mem_filter, decide_eq_true_eq]
  constructor
  · rintro ⟨⟨a, b⟩, ⟨he, h2⟩, h1⟩
    simp only at h1 h2
    subst h1; subst h2; exact he
  · intro h
    exact ⟨(m, n), ⟨h, by simp⟩, rfl⟩

theorem mem_succsOf (g : GraphicalModel) (m n : String) :
    m ∈ g.succsOf n ↔ (n, m) ∈ g.edges := by
  unfold GraphicalModel.succsOf
  simp only [List.mem_map, List.mem_filter, decide_eq_true_eq]
  constructor
  · rintro ⟨⟨a, b⟩, ⟨he, h1⟩, h2⟩
    simp only at h1 h2
    subst h1; subst h2; exact he
  · intro h
    exact ⟨(n, m), ⟨h, by simp⟩, rfl⟩

/-- C6 (code bug, evaluated at a concrete input): on the graph with nodes
p, n, c and edges p→n, p→c, n→c, `markov_blanket` at the existing node
`n` raises `TypeError` instead of returning the claimed
parents/children/children's-parents list: line 81 calls
`self.succ(var_name)`, but networkx's `succ` is a non-callable adjacency
property, so the blanket is never produced for any existing node — in
general the function returns an error on every input, the missing-node
`NameError` being the only other path. -/
theorem c6_markov_blanket :
    (GraphicalModel.markov_blanket
        ⟨"m",
          [("p", some (.varC "p" (.constE (.intL 0)) false)),
           ("n", some (.varC "n" (.constE (.intL 0)) false)),
           ("c", some (.varC "c" (.constE (.intL 0)) false))],
          [("p", "n"), ("p", "c"), ("n", "c")]⟩ "n"
      = .error .typeErrorNotCallable)
    ∧ "n" ∈ GraphicalModel.nodeNames
        ⟨"m",
          [("p", some (.varC "p" (.constE (.intL 0)) false)),
           ("n", some (.varC "n" (.constE (.intL 0)) false)),
           ("c", some (.varC "c" (.constE (.intL 0)) false))],
          [("p", "n"), ("p", "c"), ("n", "c")]⟩
    ∧ ∀ (g : GraphicalModel) (x : String),
        ∃ er, GraphicalModel.markov_blanket g x = Except.error er := by
  refine ⟨rfl, by decide, fun g x => ?_⟩
  unfold GraphicalModel.markov_blanket
  by_cases hx : x ∈ g.nodeNames
  · rw [if_pos hx]
    exact ⟨.typeErrorNotCallable, rfl⟩
  · rw [if_neg hx]
    exact ⟨.nameErrorFmt, rfl⟩

/-- C9 (code bug, evaluated at the failing input): calling `do` or
`markov_blanket` with the nonexistent name `zzz` does raise the
`NameError`, but its message is the literal template
`The specified node \x7b\x7d does not exist.` — the source never calls
`.format(name)` on it, so the offending name (here `zzz`) does not occur
anywhere in the message shown to the model author. -/
theorem c9_unknown_node_message :
    (GraphicalModel.doPure
        ⟨"m", [("a", some (.varC "a" (.constE (.intL 0)) true))], []⟩
        [("zzz", .intL 1)] = .error .nameErrorFmt)
    ∧ (GraphicalModel.markov_blanket
        ⟨"m", [("a", some (.varC "a" (.constE (.intL 0)) true))], []⟩ "zzz"
        = .error .nameErrorFmt)
    ∧ MErr.errMessage .nameErrorFmt = "The specified node \x7b\x7d does not exist."
    ∧ ¬ ("zzz".toList <:+: (MErr.errMessage .nameErrorFmt).toList) :=
  ⟨rfl, rfl, rfl, by decide⟩

theorem GraphicalModel.nodeNames_find?_none (g : GraphicalModel) (x : String)
    (hx : ¬ x ∈ g.nodeNames) : g.nodes.find? (fun p => p.1 = x) = none := by
  rw [List.find?_eq_none]
  intro p hp hpx
  simp only [decide_eq_true_eq] at hpx
  exact hx (hpx ▸ List.mem_map_of_mem Prod.fst hp)

theorem mem_ensureNode_names (g : GraphicalModel) (u x : String) :
    x ∈ (g.ensureNode u).nodeNames ↔ x ∈ g.nodeNames ∨ x = u := by
  unfold GraphicalModel.ensureNode
  split
  · rename_i hu
    simp only [iff_self_or]
    intro hx; subst hx; exact hu
  · simp [GraphicalModel.nodeNames]

theorem contentAt_ensureNode (g : GraphicalModel) (u x : String) :
    (g.ensureNode u).contentAt x = g.contentAt x := by
  by_cases hu : u ∈ g.nodeNames
  · simp [GraphicalModel.ensureNode, hu]
  · unfold GraphicalModel.ensureNode GraphicalModel.contentAt
    rw [if_neg hu]
    simp only [List.find?_append]
    cases hfind : g.nodes.find? (fun p => p.1 = x) with
    | some p => simp [Option.or]
    | none =>
      simp only [Option.none_or]
      by_cases hxu : x = u
      · subst hxu
        simp [List.find?]
      · have hux : (decide (u = x)) = false := by
          simp only [decide_eq_false_iff_not]
          exact fun h => hxu h.symm
        simp [List.find?, hux]

theorem ensureNode_edges (g : GraphicalModel) (u : String) :
    (g.ensureNode u).edges = g.edges := by
  unfold GraphicalModel.ensureNode
  split <;> rfl

theorem ensureNode_gname (g : GraphicalModel) (u : String) :
    (g.ensureNode u).gname = g.gname := by
  unfold GraphicalModel.ensureNode
  split <;> rfl

theorem mem_addEdge_names (g : GraphicalModel) (u v x : String) :
    x ∈ (g.addEdge u v).nodeNames ↔ x ∈ g.nodeNames ∨ x = u ∨ x = v := by
  unfold GraphicalModel.addEdge
  have base : ∀ h : GraphicalModel, ∀ es,
      ({ h with edges := es } : GraphicalModel).nodeNames = h.nodeNames :=
    fun h es => rfl
  split
  · rw [mem_ensureNode_names, mem_ensureNode_names, or_assoc]
  · rw [base, mem_ensureNode_names, mem_ensureNode_names, or_assoc]

theorem contentAt_addEdge (g : GraphicalModel) (u v x : String) :
    (g.addEdge u v).contentAt x = g.contentAt x := by
  unfold GraphicalModel.addEdge
  have base : ∀ h : GraphicalModel, ∀ es,
      ({ h with edges := es } : GraphicalModel).contentAt x = h.contentAt x :=
    fun h es => rfl
  split
  · rw [contentAt_ensureNode, contentAt_ensureNode]
  · rw [base, contentAt_ensureNode, contentAt_ensureNode]

theorem mem_addEdge_edges (g : GraphicalModel) (u v : String) (e : String × String) :
    e ∈ (g.addEdge u v).edges ↔ e ∈ g.edges ∨ e = (u, v) := by
  unfold GraphicalModel.addEdge
  split
  · rename_i huv
    rw [ensureNode_edges, ensureNode_edges] at huv ⊢
    simp only [iff_self_or]
    intro hx; subst hx; exact huv
  · simp only [List.mem_append, ensureNode_edges, List.mem_singleton]

theorem addEdge_gname (g : GraphicalModel) (u v : String) :
    (g.addEdge u v).gname = g.gname := by
  unfold GraphicalModel.addEdge
  split
  · rw [ensureNode_gname, ensureNode_gname]
  · show ((g.ensureNode u).ensureNode v).gname = g.gname
    rw [ensureNode_gname, ensureNode_gname]

theorem addRefEdges_names_mono (name src : String) :
    ∀ (args : List PArg) (g : GraphicalModel) (x : String), x ∈ g.nodeNames →
    x ∈ (addRefEdges g name src args).1.nodeNames := by
  intro args
  induction args with
  | nil => intro g x hx; exact hx
  | cons hd t ih =>
    intro g x hx
    cases hd with
    | lit v => exact ih g x hx
    | ref a =>
      unfold addRefEdges
      split
      · exact ih _ x ((mem_addEdge_names g a name x).mpr (Or.inl hx))
      · exact hx

theorem addRefEdges_names_bound (name src : String) :
    ∀ (args : List PArg) (g : GraphicalModel) (x : String),
    x ∈ (addRefEdges g name src args).1.nodeNames →
    x ∈ g.nodeNames ∨ x = name := by
  intro args
  induction args with
  | nil => intro g x hx; exact Or.inl hx
  | cons hd t ih =>
    intro g x hx
    cases hd with
    | lit v => exact ih g x hx
    | ref a =>
      unfold addRefEdges at hx
      by_cases ha : a ∈ g.nodeNames
      · rw [if_pos ha] at hx
        rcases ih _ x hx with h | h
        · rcases (mem_addEdge_names g a name x).mp h with h2 | h2 | h2
          · exact Or.inl h2
          · exact Or.inl (h2 ▸ ha)
          · exact Or.inr h2
        · exact Or.inr h
      · rw [if_neg ha] at hx
        exact Or.inl hx

theorem addRefEdges_contentAt (name src : String) :
    ∀ (args : List PArg) (g : GraphicalModel) (x : String),
    (addRefEdges g name src args).1.contentAt x = g.contentAt x := by
  intro args
  induction args with
  | nil => intro g x; rfl
  | cons hd t ih =>
    intro g x
    cases hd with
    | lit v => exact ih g x
    | ref a =>
      unfold addRefEdges
      split
      · rw [ih, contentAt_addEdge]
      · rfl

theorem addRefEdges_edges_mono (name src : String) :
    ∀ (args : List PArg) (g : GraphicalModel) (e : String × String), e ∈ g.edges →
    e ∈ (addRefEdges g name src args).1.edges := by
  intro args
  induction args with
  | nil => intro g e he; exact he
  | cons hd t ih =>
    intro g e he
    cases hd with
    | lit v => exact ih g e he
    | ref a =>
      unfold addRefEdges
      split
      · exact ih _ e ((mem_addEdge_edges g a name e).mpr (Or.inl he))
      · exact he

theorem addRefEdges_edges_bound (name src : String) :
    ∀ (args : List PArg) (g : GraphicalModel) (e : String × String),
    e ∈ (addRefEdges g name src args).1.edges →
    e ∈ g.edges ∨ (e.1 ∈ refsOf args ∧ e.2 = name) := by
  intro args
  induction args with
  | nil => intro g e he; exact Or.inl he
  | cons hd t ih =>
    intro g e he
    cases hd with
    | lit v =>
      rcases ih g e he with h | ⟨h1, h2⟩
      · exact Or.inl h
      · exact Or.inr ⟨by simpa [refsOf] using h1, h2⟩
    | ref a =>
      unfold addRefEdges at he
      by_cases ha : a ∈ g.nodeNames
      · rw [if_pos ha] at he
        rcases ih _ e he with h | ⟨h1, h2⟩
        · rcases (mem_addEdge_edges g a name e).mp h with h2 | h2
          · exact Or.inl h2
          · subst h2; exact Or.inr ⟨by simp [refsOf], rfl⟩
        · refine Or.inr ⟨?_, h2⟩
          simp only [refsOf, List.filterMap_cons] at *
          exact List.mem_cons_of_mem a h1
      · rw [if_neg ha] at he
        exact Or.inl he

theorem refsOf_cons_ref (a : String) (t : List PArg) :
    refsOf (.ref a :: t) = a :: refsOf t := rfl

theorem refsOf_cons_lit (v : MLit) (t : List PArg) :
    refsOf (.lit v :: t) = refsOf t := rfl

theorem addRefEdges_ref_cons (g : GraphicalModel) (name src a : String)
    (rest : List PArg) :
    addRefEdges g name src (.ref a :: rest)
      = if a ∈ g.nodeNames then addRefEdges (g.addEdge a name) name src rest
        else (g, some (.syntaxError a name src)) := rfl

theorem addRefEdges_ok (name src : String) :
    ∀ (args : List PArg) (g : GraphicalModel),
    (∀ a ∈ refsOf args, a ∈ g.nodeNames) →
    (addRefEdges g name src args).2 = none
    ∧ ∀ a ∈ refsOf args, (a, name) ∈ (addRefEdges g name src args).1.edges := by
  intro args
  induction args with
  | nil => intro g hgood; exact ⟨rfl, by simp [refsOf]⟩
  | cons hd t ih =>
    intro g hgood
    cases hd with
    | lit v =>
      rw [refsOf_cons_lit] at hgood
      have := ih g hgood
      rw [refsOf_cons_lit]
      exact ⟨this.1, this.2⟩
    | ref a =>
      rw [refsOf_cons_ref] at hgood
      have ha : a ∈ g.nodeNames := hgood a (List.mem_cons_self a (refsOf t))
      rw [addRefEdges_ref_cons, if_pos ha, refsOf_cons_ref]
      have hrest : ∀ r ∈ refsOf t, r ∈ (g.addEdge a name).nodeNames := fun r hr =>
        (mem_addEdge_names g a name r).mpr (Or.inl (hgood r (List.mem_cons_of_mem a hr)))
      have := ih (g.addEdge a name) hrest
      refine ⟨this.1, fun r hr => ?_⟩
      rcases List.mem_cons.mp hr with h | h
      · subst h
        exact addRefEdges_edges_mono name src t _ _
          ((mem_addEdge_edges g r name (r, name)).mpr (Or.inr rfl))
      · exact this.2 r h

theorem addRefEdges_append (name src : String) :
    ∀ (pre rest : List PArg) (g : GraphicalModel),
    (∀ a ∈ refsOf pre, a ∈ g.nodeNames) →
    addRefEdges g name src (pre ++ rest)
      = addRefEdges (addRefEdges g name src pre).1 name src rest := by
  intro pre
  induction pre with
  | nil => intro rest g hgood; rfl
  | cons hd t ih =>
    intro rest g hgood
    cases hd with
    | lit v =>
      rw [refsOf_cons_lit] at hgood
      show addRefEdges g name src (t ++ rest) = _
      exact ih rest g hgood
    | ref a =>
      rw [refsOf_cons_ref] at hgood
      have ha : a ∈ g.nodeNames := hgood a (List.mem_cons_self a (refsOf t))
      rw [List.cons_append, addRefEdges_ref_cons, addRefEdges_ref_cons, if_pos ha,
        if_pos ha]
      exact ih rest (g.addEdge a name)
        (fun r hr => (mem_addEdge_names g a name r).mpr
          (Or.inl (hgood r (List.mem_cons_of_mem a hr))))

theorem addRefEdges_name_created (name src : String) :
    ∀ (pre : List PArg) (g : GraphicalModel),
    (∀ a ∈ refsOf pre, a ∈ g.nodeNames) → refsOf pre ≠ [] →
    name ∈ (addRefEdges g name src pre).1.nodeNames := by
  intro pre
  induction pre with
  | nil => intro g _ hne; exact absurd rfl hne
  | cons hd t ih =>
    intro g hgood hne
    cases hd with
    | lit v =>
      rw [refsOf_cons_lit] at hgood hne
      exact ih g hgood hne
    | ref a =>
      rw [refsOf_cons_ref] at hgood
      have ha : a ∈ g.nodeNames := hgood a (List.mem_cons_self a (refsOf t))
      rw [addRefEdges_ref_cons, if_pos ha]
      exact addRefEdges_names_mono name src t _ name
        ((mem_addEdge_names g a name name).mpr (Or.inr (Or.inr rfl)))

theorem contentAt_of_not_mem (g : GraphicalModel) (x : String)
    (hx : ¬ x ∈ g.nodeNames) : g.contentAt x = none := by
  unfold GraphicalModel.contentAt
  rw [GraphicalModel.nodeNames_find?_none g x hx]

theorem addNodeContent_edges (g : GraphicalModel) (n : String) (c : NodeContent) :
    (g.addNodeContent n c).edges = g.edges := by
  unfold GraphicalModel.addNodeContent
  split <;> rfl

theorem firstBadRef_cons_ref (g : GraphicalModel) (a : String) (t : List PArg) :
    firstBadRef g (.ref a :: t)
      = if a ∈ g.nodeNames then firstBadRef g t else some a := by
  unfold firstBadRef
  rw [refsOf_cons_ref]
  by_cases ha : a ∈ g.nodeNames
  · rw [if_pos ha]
    simp [List.find?, ha]
  · rw [if_neg ha]
    simp [List.find?, ha]

/-- In the reference loop the membership test runs against the graph grown
so far; provided the new node's name is not itself referenced (or already
existed), the first failing reference agrees with the one computed against
the graph at call time. -/
theorem addRefEdges_first_bad (name src : String) :
    ∀ (args : List PArg) (g0 gc : GraphicalModel) (b : String),
    (∀ x ∈ g0.nodeNames, x ∈ gc.nodeNames) →
    (∀ x ∈ gc.nodeNames, x ∈ g0.nodeNames ∨ x = name) →
    (name ∈ refsOf args → name ∈ g0.nodeNames) →
    firstBadRef g0 args = some b →
    (addRefEdges gc name src args).2 = some (.syntaxError b name src) := by
  intro args
  induction args with
  | nil =>
    intro g0 gc b _ _ _ hbf
    simp [firstBadRef, refsOf, List.find?] at hbf
  | cons hd t ih =>
    intro g0 gc b hsub hbound hn hbf
    cases hd with
    | lit v =>
      have h1 : firstBadRef g0 (.lit v :: t) = firstBadRef g0 t := by
        unfold firstBadRef; rw [refsOf_cons_lit]
      rw [h1] at hbf
      exact ih g0 gc b hsub hbound (fun h => hn (by rwa [refsOf_cons_lit])) hbf
    | ref a =>
      rw [firstBadRef_cons_ref] at hbf
      by_cases ha0 : a ∈ g0.nodeNames
      · rw [if_pos ha0] at hbf
        have hac : a ∈ gc.nodeNames := hsub a ha0
        rw [addRefEdges_ref_cons, if_pos hac]
        refine ih g0 (gc.addEdge a name) b
          (fun x hx => (mem_addEdge_names gc a name x).mpr (Or.inl (hsub x hx)))
          (fun x hx => ?_)
          (fun h => hn (by rw [refsOf_cons_ref]; exact List.mem_cons_of_mem a h))
          hbf
        rcases (mem_addEdge_names gc a name x).mp hx with h | h | h
        · exact hbound x h
        · exact Or.inl (h ▸ ha0)
        · exact Or.inr h
      · rw [if_neg ha0] at hbf
        injection hbf with hba
        subst hba
        have hacgc : ¬ a ∈ gc.nodeNames := by
          intro hc
          rcases hbound a hc with h | h
          · exact ha0 h
          · subst h
            exact ha0 (hn (by rw [refsOf_cons_ref]; exact List.mem_cons_self a (refsOf t)))
        rw [addRefEdges_ref_cons, if_neg hacgc]

theorem evolvingBad_nil (ns : List String) (name : String) (st : Bool) :
    evolvingBad ns name [] st = none := rfl

theorem evolvingBad_cons (ns : List String) (name a : String) (t : List String)
    (st : Bool) :
    evolvingBad ns name (a :: t) st
      = if a ∈ ns ∨ (st = true ∧ a = name) then evolvingBad ns name t true
        else some a := rfl

/-- The reference loop agrees with the evolving membership test: provided
the current graph's nodes are the original ones plus (once an edge has
been inserted) the new node's identifier, the loop succeeds exactly when
no entry is rejected, and stops with the `SyntaxError` naming the first
rejected entry. -/
theorem addRefEdges_evolve (name src : String) :
    ∀ (args : List PArg) (g0 gc : GraphicalModel) (started : Bool),
    (∀ x, x ∈ gc.nodeNames ↔ x ∈ g0.nodeNames ∨ (started = true ∧ x = name)) →
    (evolvingBad g0.nodeNames name (refsOf args) started = none →
        (addRefEdges gc name src args).2 = none)
    ∧ (∀ b, evolvingBad g0.nodeNames name (refsOf args) started = some b →
        (addRefEdges gc name src args).2 = some (.syntaxError b name src)) := by
  intro args
  induction args with
  | nil =>
    intro g0 gc started hinv
    exact ⟨fun _ => rfl, fun b hb => by
      rw [refsOf, List.filterMap_nil, evolvingBad_nil] at hb
      exact Option.noConfusion hb⟩
  | cons hd t ih =>
    intro g0 gc started hinv
    cases hd with
    | lit v => exact ih g0 gc started hinv
    | ref a =>
      rw [refsOf_cons_ref, evolvingBad_cons]
      by_cases hc : a ∈ g0.nodeNames ∨ (started = true ∧ a = name)
      · rw [if_pos hc]
        have hac : a ∈ gc.nodeNames := (hinv a).mpr (by
          rcases hc with h | ⟨h1, h2⟩
          · exact Or.inl h
          · exact Or.inr ⟨h1, h2⟩)
        rw [addRefEdges_ref_cons, if_pos hac]
        refine ih g0 (gc.addEdge a name) true (fun x => ?_)
        rw [mem_addEdge_names]
        constructor
        · rintro (hx | hx | hx)
          · rcases (hinv x).mp hx with h | ⟨_, h⟩
            · exact Or.inl h
            · exact Or.inr ⟨rfl, h⟩
          · subst hx
            rcases hc with h | ⟨_, h⟩
            · exact Or.inl h
            · exact Or.inr ⟨rfl, h⟩
          · exact Or.inr ⟨rfl, hx⟩
        · rintro (hx | ⟨_, hx⟩)
          · exact Or.inl ((hinv x).mpr (Or.inl hx))
          · exact Or.inr (Or.inr hx)
      · rw [if_neg hc]
        have hac : ¬ a ∈ gc.nodeNames := fun hx => by
          rcases (hinv a).mp hx with h | h
          · exact hc (Or.inl h)
          · exact hc (Or.inr h)
        rw [addRefEdges_ref_cons, if_neg hac]
        exact ⟨fun hcon => Option.noConfusion hcon, fun b hb => by
          injection hb with hba
          subst hba
          rfl⟩

/-- On success, the reference loop has inserted one edge per string-valued
entry (no membership assumption: this covers the self-loop inserted for an
entry naming the new node itself). -/
theorem addRefEdges_ok_edges (name src : String) :
    ∀ (args : List PArg) (gc : GraphicalModel),
    (addRefEdges gc name src args).2 = none →
    ∀ a ∈ refsOf args, (a, name) ∈ (addRefEdges gc name src args).1.edges := by
  intro args
  induction args with
  | nil =>
    intro gc _ a ha
    rw [refsOf, List.filterMap_nil] at ha
    exact absurd ha (List.not_mem_nil a)
  | cons hd t ih =>
    intro gc hok a ha
    cases hd with
    | lit v => exact ih gc hok a ha
    | ref b =>
      by_cases hb : b ∈ gc.nodeNames
      · rw [addRefEdges_ref_cons, if_pos hb] at hok ⊢
        rw [refsOf_cons_ref] at ha
        rcases List.mem_cons.mp ha with h | h
        · subst h
          exact addRefEdges_edges_mono name src t _ _
            ((mem_addEdge_edges gc a name (a, name)).mpr (Or.inr rfl))
        · exact ih _ hok a h
      · rw [addRefEdges_ref_cons, if_neg hb] at hok
        exact Option.noConfusion hok

/-- C7 (counterexample): on a graph with the single node `a`, adding node
`t` with entries `["a", "t"]` must — per the claim's requirement that every
entry name a node existing at the time the node is added (`firstBadRef`
computes that at-call-time test) — raise the undefined-reference error at
entry `t`.  Instead the first entry's `add_edge("a", "t")` implicitly
creates `t`, the membership test for the second entry then passes, and the
call succeeds, inserting a self-loop `t→t`. -/
theorem c7_reference_claim_fails :
    firstBadRef ⟨"m", [("a", some (.varC "a" (.constE (.intL 0)) false))], []⟩
        [.ref "a", .ref "t"] = some "t"
    ∧ (GraphicalModel.add_transformation
        ⟨"m", [("a", some (.varC "a" (.constE (.intL 0)) false))], []⟩
        "t" (.nameE "a") [.ref "a", .ref "t"] false).2 = none
    ∧ ("t", "t") ∈ (GraphicalModel.add_transformation
        ⟨"m", [("a", some (.varC "a" (.constE (.intL 0)) false))], []⟩
        "t" (.nameE "a") [.ref "a", .ref "t"] false).1.edges
    ∧ ¬ ((GraphicalModel.add_transformation
        ⟨"m", [("a", some (.varC "a" (.constE (.intL 0)) false))], []⟩
        "t" (.nameE "a") [.ref "a", .ref "t"] false).2
          = some (.syntaxError "t" "t" (PExpr.nameE "a").toSource)) := by
  refine ⟨by decide, rfl, by decide, by decide⟩

/-- C7 (amended): the reference loop of `add_transformation` / `add_randvar`
tests each string-valued entry against the evolving graph, as transcribed
by `evolvingBad`: an entry passes when it names an originally existing
node, or names the new node itself after an earlier entry has inserted an
edge.  When no entry is rejected both calls succeed, inserting one edge
`entry→name` per string-valued entry (a self-loop when the entry is the
new node's own name); the first rejected entry raises the
undefined-reference `SyntaxError` carrying the offending name, the new
node's name and the expression's textual form; and every edge of the
result either was present before or runs from a string-valued entry to the
new node. -/
theorem c7_reference_edges (g : GraphicalModel) (name : String) (e : PExpr)
    (d : PDist) (args : List PArg) (ret : Bool) :
    (evolvingBad g.nodeNames name (refsOf args) false = none →
      (g.add_transformation name e args ret).2 = none
      ∧ (g.add_randvar name d args ret).2 = none
      ∧ ∀ a ∈ refsOf args,
          (a, name) ∈ (g.add_transformation name e args ret).1.edges
          ∧ (a, name) ∈ (g.add_randvar name d args ret).1.edges)
    ∧ (∀ b, evolvingBad g.nodeNames name (refsOf args) false = some b →
        (g.add_transformation name e args ret).2 = some (.syntaxError b name e.toSource)
        ∧ (g.add_randvar name d args ret).2 = some (.syntaxError b name d.toSource))
    ∧ (∀ u v, (u, v) ∈ (g.add_transformation name e args ret).1.edges →
        (u, v) ∈ g.edges ∨ (u ∈ refsOf args ∧ v = name))
    ∧ (∀ u v, (u, v) ∈ (g.add_randvar name d args ret).1.edges →
        (u, v) ∈ g.edges ∨ (u ∈ refsOf args ∧ v = name)) := by
  have hinv : ∀ x, x ∈ g.nodeNames ↔ x ∈ g.nodeNames ∨ (false = true ∧ x = name) := by
    intro x
    simp
  have hev1 := addRefEdges_evolve name e.toSource args g g false hinv
  have hev2 := addRefEdges_evolve name d.toSource args g g false hinv
  have hedges1 : ∀ (src : String), ∀ ee ∈ (addRefEdges g name src args).1.edges,
      ee ∈ g.edges ∨ (ee.1 ∈ refsOf args ∧ ee.2 = name) := fun src ee hee =>
    addRefEdges_edges_bound name src args g ee hee
  refine ⟨?_, ?_, ?_, ?_⟩
  · intro hnone
    have h1 := hev1.1 hnone
    have h2 := hev2.1 hnone
    have he1 := addRefEdges_ok_edges name e.toSource args g h1
    have he2 := addRefEdges_ok_edges name d.toSource args g h2
    unfold GraphicalModel.add_transformation GraphicalModel.add_randvar
    rcases hs1 : addRefEdges g name e.toSource args with ⟨g1, e1⟩
    rcases hs2 : addRefEdges g name d.toSource args with ⟨g2, e2⟩
    rw [hs1] at h1 he1
    rw [hs2] at h2 he2
    simp only at h1 h2 he1 he2
    rw [h1, h2]
    refine ⟨rfl, rfl, fun a ha => ?_⟩
    simp only [addNodeContent_edges]
    exact ⟨he1 a ha, he2 a ha⟩
  · intro b hb
    have h1 := hev1.2 b hb
    have h2 := hev2.2 b hb
    unfold GraphicalModel.add_transformation GraphicalModel.add_randvar
    rcases hs1 : addRefEdges g name e.toSource args with ⟨g1, e1⟩
    rcases hs2 : addRefEdges g name d.toSource args with ⟨g2, e2⟩
    rw [hs1] at h1
    rw [hs2] at h2
    simp only at h1 h2
    rw [h1, h2]
    exact ⟨rfl, rfl⟩
  · intro u v huv
    unfold GraphicalModel.add_transformation at huv
    rcases hs1 : addRefEdges g name e.toSource args with ⟨g1, e1⟩
    rw [hs1] at huv
    cases e1 with
    | none =>
      simp only [addNodeContent_edges] at huv
      have := hedges1 e.toSource (u, v) (by rw [hs1]; exact huv)
      simpa using this
    | some er =>
      have := hedges1 e.toSource (u, v) (by rw [hs1]; exact huv)
      simpa using this
  · intro u v huv
    unfold GraphicalModel.add_randvar at huv
    rcases hs2 : addRefEdges g name d.toSource args with ⟨g2, e2⟩
    rw [hs2] at huv
    cases e2 with
    | none =>
      simp only [addNodeContent_edges] at huv
      have := hedges1 d.toSource (u, v) (by rw [hs2]; exact huv)
      simpa using this
    | some er =>
      have := hedges1 d.toSource (u, v) (by rw [hs2]; exact huv)
      simpa using this

/-- C7 (witness): the amended characterization at the counterexample input —
the evolving test accepts both entries of `["a", "t"]`, so both variants
succeed, and the edge `a→t` and the self-loop `t→t` are present in each. -/
theorem c7_reference_edges_witness :
    evolvingBad ["a"] "t" ["a", "t"] false = none
    ∧ ((GraphicalModel.add_transformation
        ⟨"m", [("a", some (.varC "a" (.constE (.intL 0)) false))], []⟩
        "t" (.nameE "a") [.ref "a", .ref "t"] false).2 = none)
    ∧ ((GraphicalModel.add_randvar
        ⟨"m", [("a", some (.varC "a" (.constE (.intL 0)) false))], []⟩
        "t" ⟨"Normal", [.nameE "a"]⟩ [.ref "a", .ref "t"] false).2 = none)
    ∧ (("t", "t") ∈ (GraphicalModel.add_transformation
        ⟨"m", [("a", some (.varC "a" (.constE (.intL 0)) false))], []⟩
        "t" (.nameE "a") [.ref "a", .ref "t"] false).1.edges)
    ∧ (("t", "t") ∈ (GraphicalModel.add_randvar
        ⟨"m", [("a", some (.varC "a" (.constE (.intL 0)) false))], []⟩
        "t" ⟨"Normal", [.nameE "a"]⟩ [.ref "a", .ref "t"] false).1.edges) := by
  have h := (c7_reference_edges
      ⟨"m", [("a", some (.varC "a" (.constE (.intL 0)) false))], []⟩
      "t" (.nameE "a") ⟨"Normal", [.nameE "a"]⟩ [.ref "a", .ref "t"] false).1
      (by decide)
  have ht := h.2.2 "t" (by decide)
  exact ⟨by decide, h.1, h.2.1, ht.1, ht.2⟩

/-- C10 (counterexample): when the very first string-valued entry is the
undefined one, no edge has been inserted yet, so the new node's identifier
does not exist in the mutated graph — the claim's "the new node's
identifier already exists" fails for `k = 1`. -/
theorem c10_partial_claim_fails :
    ¬ claimC10At ⟨"m", [("a", some (.varC "a" (.constE (.intL 0)) false))], []⟩
      "t" (.nameE "zzz") [.ref "zzz"] := by
  unfold claimC10At
  decide

/-- C10 (amended): when the reference loop of `add_transformation` /
`add_randvar` fails on a later string-valued entry — at least one earlier
string-valued entry named an existing node — the error leaves the graph
mutated: the edges for the earlier entries are present, and the new node's
identifier exists (created implicitly by those edge insertions) with no
content attribute; when the first string-valued entry is the offender the
graph is returned unchanged. -/
theorem c10_partial_construction (g : GraphicalModel) (name : String) (e : PExpr)
    (d : PDist) (pre rest : List PArg) (bad : String) (ret : Bool)
    (hname : ¬ name ∈ g.nodeNames)
    (hpre : ∀ a ∈ refsOf pre, a ∈ g.nodeNames)
    (hbad : ¬ bad ∈ g.nodeNames) (hbadname : bad ≠ name)
    (hnonempty : refsOf pre ≠ []) :
    ((g.add_transformation name e (pre ++ .ref bad :: rest) ret).2
        = some (.syntaxError bad name e.toSource))
    ∧ ((g.add_randvar name d (pre ++ .ref bad :: rest) ret).2
        = some (.syntaxError bad name d.toSource))
    ∧ name ∈ (g.add_transformation name e (pre ++ .ref bad :: rest) ret).1.nodeNames
    ∧ (g.add_transformation name e (pre ++ .ref bad :: rest) ret).1.contentAt name
        = none
    ∧ ∀ a ∈ refsOf pre,
        (a, name) ∈ (g.add_transformation name e (pre ++ .ref bad :: rest) ret).1.edges := by
  have main : ∀ src : String,
      addRefEdges g name src (pre ++ .ref bad :: rest)
        = ((addRefEdges g name src pre).1, some (.syntaxError bad name src)) := by
    intro src
    rw [addRefEdges_append name src pre (.ref bad :: rest) g hpre]
    have hbadc : ¬ bad ∈ (addRefEdges g name src pre).1.nodeNames := by
      intro hc
      rcases addRefEdges_names_bound name src pre g bad hc with h | h
      · exact hbad h
      · exact hbadname h
    rw [addRefEdges_ref_cons, if_neg hbadc]
  have hok := addRefEdges_ok name e.toSource pre g hpre
  unfold GraphicalModel.add_transformation GraphicalModel.add_randvar
  rw [main e.toSource, main d.toSource]
  refine ⟨rfl, rfl, ?_, ?_, ?_⟩
  · exact addRefEdges_name_created name e.toSource pre g hpre hnonempty
  · rw [addRefEdges_contentAt name e.toSource pre g name]
    exact contentAt_of_not_mem g name hname
  · exact hok.2

/-- C10 (witness): the amended theorem evaluated with `pre = ["a"]`,
failing entry `zzz`: the error is raised, the edge `a→t` is already in, and
node `t` exists without content. -/
theorem c10_partial_construction_witness :
    ((GraphicalModel.add_transformation
        ⟨"m", [("a", some (.varC "a" (.constE (.intL 0)) false))], []⟩
        "t" (.nameE "a") [.ref "a", .ref "zzz"] false).2
      = some (.syntaxError "zzz" "t" "a"))
    ∧ "t" ∈ (GraphicalModel.add_transformation
        ⟨"m", [("a", some (.varC "a" (.constE (.intL 0)) false))], []⟩
        "t" (.nameE "a") [.ref "a", .ref "zzz"] false).1.nodeNames
    ∧ (GraphicalModel.add_transformation
        ⟨"m", [("a", some (.varC "a" (.constE (.intL 0)) false))], []⟩
        "t" (.nameE "a") [.ref "a", .ref "zzz"] false).1.contentAt "t" = none
    ∧ ("a", "t") ∈ (GraphicalModel.add_transformation
        ⟨"m", [("a", some (.varC "a" (.constE (.intL 0)) false))], []⟩
        "t" (.nameE "a") [.ref "a", .ref "zzz"] false).1.edges := by
  have h := c10_partial_construction
    ⟨"m", [("a", some (.varC "a" (.constE (.intL 0)) false))], []⟩
    "t" (.nameE "a") ⟨"Normal", []⟩ [.ref "a"] [] "zzz" false
    (by decide) (by decide) (by decide) (by decide) (by decide)
  exact ⟨h.1, h.2.2.1, h.2.2.2.1, h.2.2.2.2 "a" (by decide)⟩

theorem mergeRename_isReturnedC (f : String → String) (nn : String) (c : NodeContent) :
    (NodeContent.mergeRename f nn (c.setReturned false)).isReturnedC = false := by
  cases c <;> rfl

/-- C5 (counterexample): `merge_models` mutates the passed-in sub-graph:
after merging a one-node sub-model, the caller's graph object carries a
content whose `is_returned` flag has been cleared and whose internal name
has been rewritten, so it is no longer equal to the graph that was passed
in. -/
theorem c5_no_mutation_claim_fails :
    (GraphicalModel.mergeModelsRun
        ⟨"outer", [("y", some (.varC "y" (.constE (.intL 1)) true))], []⟩
        ⟨"inner", [("r", some (.varC "r" (.constE (.intL 2)) true))], []⟩
        "z" []).1.2
      ≠ ⟨"inner", [("r", some (.varC "r" (.constE (.intL 2)) true))], []⟩ := by
  decide

theorem find?_key_map {α : Type} (f : String × α → String × α)
    (hf : ∀ p, (f p).1 = p.1) (x : String) :
    ∀ l : List (String × α),
    (l.map f).find? (fun p => p.1 = x) = (l.find? (fun p => p.1 = x)).map f := by
  intro l
  induction l with
  | nil => rfl
  | cons hd t ih =>
    simp only [List.map_cons, List.find?]
    rw [hf hd]
    by_cases hhd : hd.1 = x
    · simp [hhd]
    · have hd2 : (decide (hd.1 = x)) = false := by simpa using hhd
      simp only [hd2]
      exact ih

/-- C5 (amended): `do` and `merge_models` both return a new graph and leave
the receiver unchanged, but `merge_models` mutates the passed-in sub-graph
in place: the returned node's content has its `is_returned` flag cleared
(its internal names and argument references are also rewritten to the
namespaced form), so the sub-graph is not in general unchanged. -/
theorem c5_rewrites_copy (g : GraphicalModel) (bindings : List (String × MLit))
    (self sub : GraphicalModel) (var_name : String) (margs : List MergeArg)
    (nr : String) (rest : List String)
    (hret : sub.returned_variables = nr :: rest) :
    (g.doRun bindings).1 = g
    ∧ (self.mergeModelsRun sub var_name margs).1.1 = self
    ∧ ((self.mergeModelsRun sub var_name margs).1.2).isReturnedAt nr = false := by
  refine ⟨rfl, ?_, ?_⟩
  · unfold GraphicalModel.mergeModelsRun
    rw [hret]
    simp only
    split <;> rfl
  · unfold GraphicalModel.mergeModelsRun
    rw [hret]
    simp only
    split
    all_goals
    unfold GraphicalModel.isReturnedAt GraphicalModel.contentAt
    all_goals dsimp only
    all_goals rw [find?_key_map
      (fun p : String × Option NodeContent => (p.1, p.2.map (NodeContent.mergeRename
        (fun n => if n = nr then var_name else n ++ "_" ++ sub.gname)
        (if p.1 = nr then var_name else p.1 ++ "_" ++ sub.gname))))
      (fun p => rfl) nr]
    all_goals rw [find?_key_map
      (fun p : String × Option NodeContent =>
        if p.1 = nr then (p.1, p.2.map (fun c => c.setReturned false)) else p)
      (fun p => by by_cases hp : p.1 = nr <;> simp [hp]) nr]
    cases hf : sub.nodes.find? (fun p => p.1 = nr) with
    | none => rfl
    | some p =>
      have hp1 : p.1 = nr := by
        have := List.find?_some hf
        simpa using this
      obtain ⟨p1, p2⟩ := p
      simp only at hp1
      subst hp1
      cases p2 with
      | none => simp
      | some c => simp [mergeRename_isReturnedC]

/-- C5 (witness): the amended theorem evaluated on concrete one-node
graphs. -/
theorem c5_rewrites_copy_witness :
    (GraphicalModel.doRun
        ⟨"outer", [("y", some (.varC "y" (.constE (.intL 1)) true))], []⟩
        [("y", .intL 3)]).1
      = ⟨"outer", [("y", some (.varC "y" (.constE (.intL 1)) true))], []⟩
    ∧ (GraphicalModel.mergeModelsRun
        ⟨"outer", [("y", some (.varC "y" (.constE (.intL 1)) true))], []⟩
        ⟨"inner", [("r", some (.varC "r" (.constE (.intL 2)) true))], []⟩
        "z" []).1.1
      = ⟨"outer", [("y", some (.varC "y" (.constE (.intL 1)) true))], []⟩
    ∧ ((GraphicalModel.mergeModelsRun
        ⟨"outer", [("y", some (.varC "y" (.constE (.intL 1)) true))], []⟩
        ⟨"inner", [("r", some (.varC "r" (.constE (.intL 2)) true))], []⟩
        "z" []).1.2).isReturnedAt "r" = false :=
  c5_rewrites_copy
    ⟨"outer", [("y", some (.varC "y" (.constE (.intL 1)) true))], []⟩
    [("y", .intL 3)]
    ⟨"outer", [("y", some (.varC "y" (.constE (.intL 1)) true))], []⟩
    ⟨"inner", [("r", some (.varC "r" (.constE (.intL 2)) true))], []⟩
    "z" [] "r" [] (by decide)

theorem foldlM_error_source {α β E : Type} (step : β → α → Except E β) :
    ∀ (l : List α) (acc : β) (c : E), l.foldlM step acc = .error c →
    ∃ a ∈ l, ∃ b, step b a = .error c := by
  intro l
  induction l with
  | nil =>
    intro acc c h
    rw [List.foldlM_nil] at h
    exact absurd h (by simp [pure, Except.pure])
  | cons hd t ih =>
    intro acc c h
    rw [List.foldlM_cons] at h
    cases hstep : step acc hd with
    | ok b2 =>
      rw [hstep] at h
      simp only [Bind.bind, Except.bind] at h
      obtain ⟨a, ha, b, hb⟩ := ih b2 c h
      exact ⟨a, List.mem_cons_of_mem hd ha, b, hb⟩
    | error c2 =>
      rw [hstep] at h
      simp only [Bind.bind, Except.bind] at h
      injection h with hc
      subst hc
      exact ⟨hd, List.mem_cons_self hd t, acc, hstep⟩

theorem foldlM_congr {α β E : Type} (s1 s2 : β → α → Except E β) :
    ∀ (l : List α) (acc : β), (∀ b a, a ∈ l → s1 b a = s2 b a) →
    l.foldlM s1 acc = l.foldlM s2 acc := by
  intro l
  induction l with
  | nil => intro acc _; rfl
  | cons hd t ih =>
    intro acc hagree
    rw [List.foldlM_cons, List.foldlM_cons,
      hagree acc hd (List.mem_cons_self hd t)]
    cases hstep : s2 acc hd with
    | ok b2 =>
      simp only [Bind.bind, Except.bind]
      exact ih b2 (fun b a ha => hagree b a (List.mem_cons_of_mem hd ha))
    | error c => rfl

theorem addArgSlots_ok (predAst : CExpr) (out : List (Nat × CExpr)) :
    ∀ (positions : List Nat) (oa : List (Nat × CExpr)),
    addArgSlots positions predAst oa = .ok out →
    out.map Prod.fst = oa.map Prod.fst ++ positions
    ∧ ((oa.map Prod.fst).Nodup → (out.map Prod.fst).Nodup) := by
  intro positions
  induction positions with
  | nil =>
    intro oa h
    unfold addArgSlots at h
    rw [List.foldlM_nil] at h
    injection h with h1
    subst h1
    exact ⟨by simp, fun h => h⟩
  | cons hd t ih =>
    intro oa h
    unfold addArgSlots at h
    rw [List.foldlM_cons] at h
    by_cases hmem : oa.any (fun p => p.1 = hd)
    · rw [if_pos hmem] at h
      simp [Bind.bind, Except.bind] at h
    · rw [if_neg hmem] at h
      simp only [Bind.bind, Except.bind] at h
      have hstep := ih (oa ++ [(hd, predAst)]) h
      have hkeys : (oa ++ [(hd, predAst)]).map Prod.fst = oa.map Prod.fst ++ [hd] := by
        simp
      constructor
      · rw [hstep.1, hkeys, List.append_assoc, List.singleton_append]
      · intro hnd
        apply hstep.2
        rw [hkeys]
        apply List.Nodup.append hnd (List.nodup_singleton hd)
        intro x hx hx2
        rw [List.mem_singleton] at hx2
        rw [hx2] at hx
        have hnot : ¬ ∃ q ∈ oa, q.1 = hd := by simpa using hmem
        rcases List.mem_map.mp hx with ⟨q, hq, hqx⟩
        exact hnot ⟨q, hq, hqx⟩

theorem addArgSlots_error (positions : List Nat) (predAst : CExpr)
    (oa : List (Nat × CExpr)) (c : CErr)
    (h : addArgSlots positions predAst oa = .error c) : c = .duplicateArgument := by
  obtain ⟨idx, _, b, hb⟩ := foldlM_error_source _ positions oa c h
  by_cases hmem : b.any (fun p => p.1 = idx)
  · rw [if_pos hmem] at hb
    injection hb with hc
    exact hc.symm
  · rw [if_neg hmem] at hb
    exact absurd hb (by simp)

theorem predStep_congr (g : CGraph) (r1 r2 : Nat → Except CErr CExpr)
    (acc : List (Nat × CExpr) × List (String × CExpr)) (e : CEdge)
    (h : r1 e.src = r2 e.src) : predStep g r1 acc e = predStep g r2 acc e := by
  unfold predStep
  rw [h]

theorem predStep_error_cases (g : CGraph) (rec : Nat → Except CErr CExpr)
    (acc : List (Nat × CExpr) × List (String × CExpr)) (e : CEdge) (c : CErr)
    (h : predStep g rec acc e = .error c) :
    c = .duplicateArgument ∨ (rec e.src = .error c) := by
  unfold predStep at h
  cases hn : (g.nodeAt e.src).nameOf with
  | some n =>
    rw [hn] at h
    simp only [Bind.bind, Except.bind] at h
    cases hd : e.data with
    | argE positions =>
      rw [hd] at h
      dsimp only at h
      cases has : addArgSlots positions (CExpr.nameRef n) acc.1 with
      | ok oa => rw [has] at h; simp [Bind.bind, Except.bind] at h
      | error c2 =>
        rw [has] at h
        simp only [Bind.bind, Except.bind] at h
        injection h with hc
        subst hc
        exact Or.inl (addArgSlots_error positions _ acc.1 _ has)
    | kwE keys =>
      rw [hd] at h
      dsimp only at h
      simp at h
  | none =>
    rw [hn] at h
    cases hrec : rec e.src with
    | ok pa =>
      rw [hrec] at h
      simp only [Bind.bind, Except.bind] at h
      cases hd : e.data with
      | argE positions =>
        rw [hd] at h
        dsimp only at h
        cases has : addArgSlots positions pa acc.1 with
        | ok oa => rw [has] at h; simp [Bind.bind, Except.bind] at h
        | error c2 =>
          rw [has] at h
          simp only [Bind.bind, Except.bind] at h
          injection h with hc
          subst hc
          exact Or.inl (addArgSlots_error positions _ acc.1 _ has)
      | kwE keys =>
        rw [hd] at h
        dsimp only at h
        simp at h
    | error cw =>
      rw [hrec] at h
      simp only [Bind.bind, Except.bind] at h
      injection h with hc
      subst hc
      exact Or.inr rfl

theorem predStep_ok_keys (g : CGraph) (rec : Nat → Except CErr CExpr)
    (acc acc2 : List (Nat × CExpr) × List (String × CExpr)) (e : CEdge)
    (h : predStep g rec acc e = .ok acc2) :
    acc2.1.map Prod.fst = acc.1.map Prod.fst ++ e.positionsOf
    ∧ ((acc.1.map Prod.fst).Nodup → (acc2.1.map Prod.fst).Nodup) := by
  unfold predStep at h
  have main : ∀ (pa : CExpr),
      (match e.data with
        | .argE positions => do
            let oa ← addArgSlots positions pa acc.1
            Except.ok (oa, acc.2)
        | .kwE keys =>
            Except.ok (acc.1, keys.foldl (fun kw k => insertKw kw k pa) acc.2))
        = Except.ok acc2 →
      acc2.1.map Prod.fst = acc.1.map Prod.fst ++ e.positionsOf
      ∧ ((acc.1.map Prod.fst).Nodup → (acc2.1.map Prod.fst).Nodup) := by
    intro pa hm
    cases hd : e.data with
    | argE positions =>
      rw [hd] at hm
      dsimp only at hm
      cases has : addArgSlots positions pa acc.1 with
      | ok oa =>
        rw [has] at hm
        simp only [Bind.bind, Except.bind] at hm
        injection hm with hacc
        subst hacc
        have := addArgSlots_ok pa oa positions acc.1 has
        unfold CEdge.positionsOf
        rw [hd]
        exact ⟨this.1, this.2⟩
      | error c2 =>
        rw [has] at hm
        simp [Bind.bind, Except.bind] at hm
    | kwE keys =>
      rw [hd] at hm
      dsimp only at hm
      injection hm with hacc
      subst hacc
      unfold CEdge.positionsOf
      rw [hd]
      exact ⟨by simp, fun hh => hh⟩
  cases hn : (g.nodeAt e.src).nameOf with
  | some n =>
    rw [hn] at h
    simp only [Bind.bind, Except.bind] at h
    exact main (CExpr.nameRef n) h
  | none =>
    rw [hn] at h
    cases hrec : rec e.src with
    | ok pa =>
      rw [hrec] at h
      simp only [Bind.bind, Except.bind] at h
      exact main pa h
    | error cw =>
      rw [hrec] at h
      simp [Bind.bind, Except.bind] at h

theorem compileOpF_succ (g : CGraph) (fuel v : Nat) :
    compileOpF g (fuel + 1) v
      = Except.bind ((g.predEdges v).foldlM (predStep g (compileOpF g fuel)) ([], []))
        (fun acc => Except.ok (nodeGen (g.nodeAt v)
          ((List.insertionSort (fun a b => a.1 ≤ b.1) acc.1).map Prod.snd) acc.2)) :=
  rfl

theorem predEdges_src_lt (g : CGraph) (hok : g.edgesOk) (v : Nat) (e : CEdge)
    (he : e ∈ g.predEdges v) : e.src < v := by
  unfold CGraph.predEdges at he
  rw [List.mem_filter] at he
  have h2 := (hok e he.1).1
  have h3 : e.dst = v := by simpa using he.2
  rw [h3] at h2
  exact h2

theorem compileOpF_stable (g : CGraph) (hok : g.edgesOk) :
    ∀ (f1 f2 v : Nat), v < f1 → v < f2 →
    compileOpF g f1 v = compileOpF g f2 v := by
  intro f1
  induction f1 with
  | zero => intro f2 v h1 _; exact absurd h1 (Nat.not_lt_zero v)
  | succ f1 ih =>
    intro f2 v h1 h2
    cases f2 with
    | zero => exact absurd h2 (Nat.not_lt_zero v)
    | succ f2 =>
      rw [compileOpF_succ, compileOpF_succ]
      rw [foldlM_congr (predStep g (compileOpF g f1)) (predStep g (compileOpF g f2))
        (g.predEdges v) ([], [])
        (fun b e he => predStep_congr g _ _ b e
          (ih f2 e.src
            (Nat.lt_of_lt_of_le (predEdges_src_lt g hok v e he) (Nat.lt_succ_iff.mp h1))
            (Nat.lt_of_lt_of_le (predEdges_src_lt g hok v e he) (Nat.lt_succ_iff.mp h2))))]

theorem compileOpF_no_fuel (g : CGraph) (hok : g.edgesOk) :
    ∀ (fuel v : Nat), v < fuel → compileOpF g fuel v ≠ .error .fuelExhausted := by
  intro fuel
  induction fuel with
  | zero => intro v h1; exact absurd h1 (Nat.not_lt_zero v)
  | succ f ih =>
    intro v h1 hcon
    rw [compileOpF_succ] at hcon
    cases hfold : (g.predEdges v).foldlM (predStep g (compileOpF g f)) ([], []) with
    | ok acc => rw [hfold] at hcon; simp [Bind.bind, Except.bind] at hcon
    | error c =>
      rw [hfold] at hcon
      simp only [Except.bind] at hcon
      injection hcon with hc
      subst hc
      obtain ⟨e, he, b, hb⟩ := foldlM_error_source _ (g.predEdges v) ([], []) _ hfold
      rcases predStep_error_cases g _ b e _ hb with hdup | hrec
      · exact absurd hdup (by simp)
      · exact ih e.src
          (Nat.lt_of_lt_of_le (predEdges_src_lt g hok v e he) (Nat.lt_succ_iff.mp h1))
          hrec

theorem collect_slots (g : CGraph) (rec : Nat → Except CErr CExpr) :
    ∀ (l : List CEdge) (acc out : List (Nat × CExpr) × List (String × CExpr)),
    l.foldlM (predStep g rec) acc = .ok out →
    out.1.map Prod.fst = acc.1.map Prod.fst ++ l.flatMap CEdge.positionsOf
    ∧ ((acc.1.map Prod.fst).Nodup → (out.1.map Prod.fst).Nodup) := by
  intro l
  induction l with
  | nil =>
    intro acc out h
    rw [List.foldlM_nil] at h
    injection h with h1
    subst h1
    exact ⟨by simp, fun hh => hh⟩
  | cons e t ih =>
    intro acc out h
    rw [List.foldlM_cons] at h
    cases hstep : predStep g rec acc e with
    | ok acc2 =>
      rw [hstep] at h
      simp only [Bind.bind, Except.bind] at h
      have h1 := predStep_ok_keys g rec acc acc2 e hstep
      have h2 := ih acc2 out h
      constructor
      · rw [h2.1, h1.1, List.flatMap_cons, List.append_assoc]
      · intro hnd
        exact h2.2 (h1.2 hnd)
    | error c =>
      rw [hstep] at h
      simp [Bind.bind, Except.bind] at h

theorem compileOp_eq_collect (g : CGraph) (hok : g.edgesOk) (v : Nat) :
    compileOp g v
      = Except.bind (collectOpArgs g v)
        (fun acc => Except.ok (nodeGen (g.nodeAt v)
          ((List.insertionSort (fun a b => a.1 ≤ b.1) acc.1).map Prod.snd) acc.2)) := by
  unfold compileOp collectOpArgs
  rw [compileOpF_succ]
  rw [foldlM_congr (predStep g (compileOpF g v)) (predStep g (compileOp g))
    (g.predEdges v) ([], [])
    (fun b e he => predStep_congr g _ _ b e
      (compileOpF_stable g hok v (e.src + 1) e.src
        (predEdges_src_lt g hok v e he) (Nat.lt_succ_self e.src)))]

/-- C8: positional operands are collected into a slot-index map and passed
to the node's expression-production capability in strictly ascending slot
order, and whenever two different predecessors of the same node claim the
same slot index, `compile_op` fails with the duplicate-argument error (the
`IndexError("Duplicate argument position")`); such a graph is itself
constructible, the failure arising only at compilation. -/
theorem c8_positional_slots (g : CGraph) (v : Nat) (hok : g.edgesOk) :
    (dupSlotClaim g v → compileOp g v = .error .duplicateArgument)
    ∧ (∀ oa kw, collectOpArgs g v = .ok (oa, kw) →
        compileOp g v = .ok (nodeGen (g.nodeAt v)
          ((List.insertionSort (fun a b => a.1 ≤ b.1) oa).map Prod.snd) kw)
        ∧ ((List.insertionSort (fun a b => a.1 ≤ b.1) oa).map Prod.fst).Sorted
            (· < ·)) := by
  constructor
  · intro hdup
    cases hc : collectOpArgs g v with
    | ok acc =>
      exfalso
      obtain ⟨oa, kw⟩ := acc
      have hslots := collect_slots g (compileOp g) (g.predEdges v) ([], []) (oa, kw) hc
      have hnd : ((g.predEdges v).flatMap CEdge.positionsOf).Nodup := by
        have h2 := hslots.2 (by simp)
        rw [hslots.1] at h2
        simpa using h2
      obtain ⟨e1, he1, e2, he2, hne, k, hk1, hk2⟩ := hdup
      have hpair := (List.nodup_flatMap.mp hnd).2
      have hdisj := hpair.forall
        (fun a b hab => List.Disjoint.symm hab) he1 he2
        (fun h => hne (by rw [h]))
      exact hdisj hk1 hk2
    | error c =>
      have hcval : c = .duplicateArgument := by
        obtain ⟨e, he, b, hb⟩ := foldlM_error_source _ (g.predEdges v) ([], []) c hc
        rcases predStep_error_cases g _ b e c hb with h | h
        · exact h
        · cases hcc : c with
          | duplicateArgument => rfl
          | fuelExhausted =>
            exfalso
            rw [hcc] at h
            exact compileOpF_no_fuel g hok (e.src + 1) e.src (Nat.lt_succ_self e.src) h
      rw [compileOp_eq_collect g hok v, hc, hcval]
      rfl
  · intro oa kw hc
    have hbridge := compileOp_eq_collect g hok v
    rw [hc] at hbridge
    constructor
    · rw [hbridge]; rfl
    · have hsorted : (List.insertionSort (fun a b : Nat × CExpr => a.1 ≤ b.1) oa).Sorted
          (fun a b => a.1 ≤ b.1) := List.sorted_insertionSort _ oa
      have hmaple : ((List.insertionSort (fun a b : Nat × CExpr => a.1 ≤ b.1) oa).map
          Prod.fst).Sorted (· ≤ ·) :=
        List.Pairwise.map Prod.fst (fun a b h => h) hsorted
      have hperm : List.Perm
          ((List.insertionSort (fun a b : Nat × CExpr => a.1 ≤ b.1) oa).map Prod.fst)
          (oa.map Prod.fst) :=
        (List.perm_insertionSort _ oa).map Prod.fst
      have hnodup : (oa.map Prod.fst).Nodup :=
        (collect_slots g (compileOp g) (g.predEdges v) ([], []) (oa, kw) hc).2 (by simp)
      have hnodup2 : ((List.insertionSort (fun a b : Nat × CExpr => a.1 ≤ b.1) oa).map
          Prod.fst).Nodup := hperm.nodup_iff.mpr hnodup
      exact List.Sorted.lt_of_le hmaple hnodup2

/-- C8 (witness): two constants both claiming slot 0 of the same op — the
graph value exists (no construction-time failure) and compiling the op
node fails with the duplicate-argument error. -/
theorem c8_positional_slots_witness :
    compileOp
      ⟨[.constant (some "a") (.intL 1) false, .constant (some "b") (.intL 2) false,
        .op (some "c") 5 false],
       [⟨0, 2, .argE [0]⟩, ⟨1, 2, .argE [0]⟩]⟩ 2
      = .error .duplicateArgument :=
  (c8_positional_slots
      ⟨[.constant (some "a") (.intL 1) false, .constant (some "b") (.intL 2) false,
        .op (some "c") 5 false],
       [⟨0, 2, .argE [0]⟩, ⟨1, 2, .argE [0]⟩]⟩ 2 (by decide)).1
    ⟨⟨0, 2, .argE [0]⟩, by decide, ⟨1, 2, .argE [0]⟩, by decide, by decide, 0,
      by decide, by decide⟩

theorem addNew_subset (seen : List String) (x : String) : seen ⊆ addNew seen x := by
  unfold addNew
  split
  · exact fun a ha => ha
  · exact fun a ha => List.mem_append_left _ ha

theorem mem_addNew (seen : List String) (x y : String) :
    y ∈ addNew seen x ↔ y ∈ seen ∨ y = x := by
  unfold addNew
  split
  · rename_i hx
    simp only [iff_self_or]
    intro h; subst h; exact hx
  · simp

theorem addNew_nodup (seen : List String) (x : String) (h : seen.Nodup) :
    (addNew seen x).Nodup := by
  unfold addNew
  split
  · exact h
  · rename_i hx
    apply List.Nodup.append h (List.nodup_singleton x)
    intro a ha ha2
    rw [List.mem_singleton] at ha2
    subst ha2
    exact hx ha

theorem addNew_append (seen : List String) (x : String) :
    ∃ δ, addNew seen x = seen ++ δ := by
  unfold addNew
  split
  · exact ⟨[], by simp⟩
  · exact ⟨[x], rfl⟩

theorem growOnceFold_append (step : List String → String × String → List String)
    (hstep : ∀ s e, ∃ δ, step s e = s ++ δ) :
    ∀ (l : List (String × String)) (seen : List String),
    ∃ δ, l.foldl step seen = seen ++ δ := by
  intro l
  induction l with
  | nil => intro seen; exact ⟨[], by simp⟩
  | cons e t ih =>
    intro seen
    rw [List.foldl_cons]
    obtain ⟨d1, hd1⟩ := hstep seen e
    obtain ⟨d2, hd2⟩ := ih (step seen e)
    exact ⟨d1 ++ d2, by rw [hd2, hd1, List.append_assoc]⟩

theorem growOnce_append (g : GraphicalModel) (seen : List String) :
    ∃ δ, g.growOnce seen = seen ++ δ := by
  apply growOnceFold_append
  intro s e
  by_cases h1 : e.1 ∈ s
  · simp only [h1, if_true]
    exact addNew_append s e.2
  · by_cases h2 : e.2 ∈ s
    · simp only [h1, h2, if_false, if_true]
      exact addNew_append s e.1
    · simp only [h1, h2, if_false]
      exact ⟨[], by simp⟩

theorem growOnce_subset (g : GraphicalModel) (seen : List String) :
    seen ⊆ g.growOnce seen := by
  obtain ⟨δ, hδ⟩ := growOnce_append g seen
  rw [hδ]
  exact fun a ha => List.mem_append_left _ ha

theorem growOnceFold_mono (step : List String → String × String → List String)
    (hstep : ∀ s e, ∃ δ, step s e = s ++ δ)
    (l : List (String × String)) (seen : List String) :
    seen ⊆ l.foldl step seen := by
  obtain ⟨δ, hδ⟩ := growOnceFold_append step hstep l seen
  rw [hδ]
  exact fun a ha => List.mem_append_left _ ha

theorem growStep_cases (s : List String) (e : String × String) :
    (if e.1 ∈ s then addNew s e.2 else if e.2 ∈ s then addNew s e.1 else s) = s
    ∨ (e.1 ∈ s ∧ ¬ e.2 ∈ s
        ∧ (if e.1 ∈ s then addNew s e.2 else if e.2 ∈ s then addNew s e.1 else s)
          = s ++ [e.2])
    ∨ (¬ e.1 ∈ s ∧ e.2 ∈ s
        ∧ (if e.1 ∈ s then addNew s e.2 else if e.2 ∈ s then addNew s e.1 else s)
          = s ++ [e.1]) := by
  by_cases h1 : e.1 ∈ s <;> by_cases h2 : e.2 ∈ s
  · exact Or.inl (by simp [h1, h2, addNew])
  · exact Or.inr (Or.inl ⟨h1, h2, by simp [h1, h2, addNew]⟩)
  · exact Or.inr (Or.inr ⟨h1, h2, by simp [h1, h2, addNew]⟩)
  · exact Or.inl (by simp [h1, h2])

theorem growOnceFold_sound (g : GraphicalModel) (start : String) :
    ∀ (l : List (String × String)), (∀ e ∈ l, e ∈ g.edges) →
    ∀ (seen : List String), (∀ x ∈ seen, g.connectedU start x) →
    ∀ x ∈ l.foldl (fun s e =>
      if e.1 ∈ s then addNew s e.2 else if e.2 ∈ s then addNew s e.1 else s) seen,
    g.connectedU start x := by
  intro l
  induction l with
  | nil => intro _ seen hseen x hx; exact hseen x hx
  | cons e t ih =>
    intro hl seen hseen x hx
    rw [List.foldl_cons] at hx
    refine ih (fun e2 he2 => hl e2 (List.mem_cons_of_mem e he2)) _ ?_ x hx
    intro y hy
    have he : e ∈ g.edges := hl e (List.mem_cons_self e t)
    have hadj12 : g.adjU e.1 e.2 := Or.inl (by
      have : (e.1, e.2) = e := rfl
      rw [this]; exact he)
    by_cases h1 : e.1 ∈ seen
    · simp only [h1, if_true] at hy
      rcases (mem_addNew seen e.2 y).mp hy with h | h
      · exact hseen y h
      · subst h
        exact Relation.ReflTransGen.tail (hseen e.1 h1) hadj12
    · by_cases h2 : e.2 ∈ seen
      · simp only [h1, h2, if_false, if_true] at hy
        rcases (mem_addNew seen e.1 y).mp hy with h | h
        · exact hseen y h
        · subst h
          refine Relation.ReflTransGen.tail (hseen e.2 h2) ?_
          show (e.2, e.1) ∈ g.edges ∨ (e.1, e.2) ∈ g.edges
          refine Or.inr ?_
          have he2 : (e.1, e.2) = e := rfl
          rw [he2]
          exact he
      · simp only [h1, h2, if_false] at hy
        exact hseen y hy

theorem growOnceFold_nodup :
    ∀ (l : List (String × String)) (seen : List String), seen.Nodup →
    (l.foldl (fun s e =>
      if e.1 ∈ s then addNew s e.2 else if e.2 ∈ s then addNew s e.1 else s)
      seen).Nodup := by
  intro l
  induction l with
  | nil => intro seen h; exact h
  | cons e t ih =>
    intro seen h
    rw [List.foldl_cons]
    apply ih
    by_cases h1 : e.1 ∈ seen
    · simp only [h1, if_true]
      exact addNew_nodup seen e.2 h
    · by_cases h2 : e.2 ∈ seen
      · simp only [h1, h2, if_false, if_true]
        exact addNew_nodup seen e.1 h
      · simp only [h1, h2, if_false]
        exact h

theorem growOnceFold_endPoints (g : GraphicalModel) (start : String) :
    ∀ (l : List (String × String)), (∀ e ∈ l, e ∈ g.edges) →
    ∀ (seen : List String), seen ⊆ g.endPoints start →
    (l.foldl (fun s e =>
      if e.1 ∈ s then addNew s e.2 else if e.2 ∈ s then addNew s e.1 else s)
      seen) ⊆ g.endPoints start := by
  intro l
  induction l with
  | nil => intro _ seen h; exact h
  | cons e t ih =>
    intro hl seen h
    rw [List.foldl_cons]
    apply ih (fun e2 he2 => hl e2 (List.mem_cons_of_mem e he2))
    have he : e ∈ g.edges := hl e (List.mem_cons_self e t)
    have h1mem : e.1 ∈ g.endPoints start := by
      unfold GraphicalModel.endPoints
      refine List.mem_cons_of_mem start (List.mem_flatMap.mpr ⟨e, he, by simp⟩)
    have h2mem : e.2 ∈ g.endPoints start := by
      unfold GraphicalModel.endPoints
      refine List.mem_cons_of_mem start (List.mem_flatMap.mpr ⟨e, he, by simp⟩)
    intro y hy
    by_cases h1 : e.1 ∈ seen
    · simp only [h1, if_true] at hy
      rcases (mem_addNew seen e.2 y).mp hy with hm | hm
      · exact h hm
      · exact hm ▸ h2mem
    · by_cases h2 : e.2 ∈ seen
      · simp only [h1, h2, if_false, if_true] at hy
        rcases (mem_addNew seen e.1 y).mp hy with hm | hm
        · exact h hm
        · exact hm ▸ h1mem
      · simp only [h1, h2, if_false] at hy
        exact h hy

theorem growOnceFold_mono2 :
    ∀ (l : List (String × String)) (seen : List String),
    seen ⊆ l.foldl (fun s e =>
      if e.1 ∈ s then addNew s e.2 else if e.2 ∈ s then addNew s e.1 else s) seen := by
  intro l seen
  apply growOnceFold_mono
  intro s ee
  rcases growStep_cases s ee with h | ⟨_, _, h⟩ | ⟨_, _, h⟩
  · exact ⟨[], by simp [h]⟩
  · exact ⟨[ee.2], h⟩
  · exact ⟨[ee.1], h⟩

theorem growOnceFold_fix :
    ∀ (l : List (String × String)) (seen : List String),
    (l.foldl (fun s e =>
      if e.1 ∈ s then addNew s e.2 else if e.2 ∈ s then addNew s e.1 else s)
      seen) = seen →
    ∀ e ∈ l, (e.1 ∈ seen → e.2 ∈ seen) ∧ (e.2 ∈ seen → e.1 ∈ seen) := by
  intro l
  induction l with
  | nil => intro seen _ e he; exact absurd he (List.not_mem_nil e)
  | cons e t ih =>
    intro seen hfold e2 he2
    rw [List.foldl_cons] at hfold
    have hstepeq : (if e.1 ∈ seen then addNew seen e.2
        else if e.2 ∈ seen then addNew seen e.1 else seen) = seen := by
      rcases growStep_cases seen e with h | ⟨h1, h2, h⟩ | ⟨h1, h2, h⟩
      · exact h
      · exfalso
        rw [h] at hfold
        have hin : e.2 ∈ seen := by
          rw [← hfold]
          exact growOnceFold_mono2 t (seen ++ [e.2])
            (List.mem_append_right seen (List.mem_singleton_self e.2))
        exact h2 hin
      · exfalso
        rw [h] at hfold
        have hin : e.1 ∈ seen := by
          rw [← hfold]
          exact growOnceFold_mono2 t (seen ++ [e.1])
            (List.mem_append_right seen (List.mem_singleton_self e.1))
        exact h1 hin
    rw [hstepeq] at hfold
    rcases List.mem_cons.mp he2 with hh | hh
    · subst hh
      by_cases h1 : e2.1 ∈ seen
      · rw [if_pos h1] at hstepeq
        have he2in : e2.2 ∈ seen := by
          by_contra hc
          rw [addNew, if_neg hc] at hstepeq
          have hlen := congrArg List.length hstepeq
          simp at hlen
        exact ⟨fun _ => he2in, fun _ => h1⟩
      · rw [if_neg h1] at hstepeq
        by_cases h2 : e2.2 ∈ seen
        · rw [if_pos h2] at hstepeq
          exfalso
          rw [addNew, if_neg h1] at hstepeq
          have hlen := congrArg List.length hstepeq
          simp at hlen
        · exact ⟨fun hc => absurd hc h1, fun hc => absurd hc h2⟩
    · exact ih seen hfold e2 hh

theorem applyBinding_nodeNames (nm : GraphicalModel) (name : String) (value : MLit) :
    (nm.applyBinding name value).nodeNames = nm.nodeNames := by
  unfold GraphicalModel.applyBinding GraphicalModel.nodeNames
  simp only [List.map_map]
  apply List.map_congr_left
  intro p _
  by_cases hp : p.1 = name <;> simp [hp, Function.comp]

theorem applyBinding_contentAt_self (nm : GraphicalModel) (name : String)
    (value : MLit) (h : name ∈ nm.nodeNames) :
    (nm.applyBinding name value).contentAt name
      = some (.varC name (.constE value) false) := by
  unfold GraphicalModel.applyBinding GraphicalModel.contentAt
  dsimp only
  rw [find?_key_map (fun p : String × Option NodeContent => if p.1 = name
      then (p.1, some (NodeContent.varC name (PExpr.constE value) false)) else p)
    (fun p => by by_cases hp : p.1 = name <;> simp [hp]) name]
  unfold GraphicalModel.nodeNames at h
  rcases List.mem_map.mp h with ⟨p, hp, hpn⟩
  cases hfind : nm.nodes.find? (fun q => q.1 = name) with
  | none =>
    exfalso
    rw [List.find?_eq_none] at hfind
    exact hfind p hp (by simpa using hpn)
  | some q =>
    have hq1 : q.1 = name := by simpa using List.find?_some hfind
    simp [hq1]

theorem applyBinding_contentAt_other (nm : GraphicalModel) (name x : String)
    (value : MLit) (h : x ≠ name) :
    (nm.applyBinding name value).contentAt x = nm.contentAt x := by
  unfold GraphicalModel.applyBinding GraphicalModel.contentAt
  dsimp only
  rw [find?_key_map (fun p : String × Option NodeContent => if p.1 = name
      then (p.1, some (NodeContent.varC name (PExpr.constE value) false)) else p)
    (fun p => by by_cases hp : p.1 = name <;> simp [hp]) x]
  cases hfind : nm.nodes.find? (fun q => q.1 = x) with
  | none => rfl
  | some q =>
    have hq1 : q.1 = x := by simpa using List.find?_some hfind
    have hqn : ¬ q.1 = name := by rw [hq1]; exact h
    simp [hqn]

theorem applyBinding_edges (nm : GraphicalModel) (name : String) (value : MLit) :
    (nm.applyBinding name value).edges = nm.edges.filter (fun e => e.2 ≠ name) := rfl

theorem doFold_nodeNames (g : GraphicalModel) :
    ∀ (bindings : List (String × MLit)) (g0 nm : GraphicalModel),
    bindings.foldlM (fun nm p =>
      if p.1 ∈ g.nodeNames then Except.ok (nm.applyBinding p.1 p.2)
      else Except.error MErr.nameErrorFmt) g0 = .ok nm →
    nm.nodeNames = g0.nodeNames := by
  intro bindings
  induction bindings with
  | nil =>
    intro g0 nm h
    rw [List.foldlM_nil] at h
    injection h with h1
    rw [h1]
  | cons p t ih =>
    intro g0 nm h
    rw [List.foldlM_cons] at h
    by_cases hp : p.1 ∈ g.nodeNames
    · rw [if_pos hp] at h
      simp only [Bind.bind, Except.bind] at h
      rw [ih _ _ h, applyBinding_nodeNames]
    · rw [if_neg hp] at h
      simp [Bind.bind, Except.bind] at h

theorem doFold_ok (g : GraphicalModel) :
    ∀ (bindings : List (String × MLit)) (g0 : GraphicalModel),
    (∀ p ∈ bindings, p.1 ∈ g.nodeNames) →
    ∃ nm, bindings.foldlM (fun nm p =>
      if p.1 ∈ g.nodeNames then Except.ok (nm.applyBinding p.1 p.2)
      else Except.error MErr.nameErrorFmt) g0 = .ok nm := by
  intro bindings
  induction bindings with
  | nil => intro g0 _; exact ⟨g0, rfl⟩
  | cons p t ih =>
    intro g0 hall
    rw [List.foldlM_cons, if_pos (hall p (List.mem_cons_self p t))]
    simp only [Bind.bind, Except.bind]
    exact ih _ (fun q hq => hall q (List.mem_cons_of_mem p hq))

theorem doFold_content_pres (g : GraphicalModel) (x : String) :
    ∀ (bindings : List (String × MLit)) (g0 nm : GraphicalModel),
    bindings.foldlM (fun nm p =>
      if p.1 ∈ g.nodeNames then Except.ok (nm.applyBinding p.1 p.2)
      else Except.error MErr.nameErrorFmt) g0 = .ok nm →
    ¬ x ∈ bindings.map Prod.fst →
    nm.contentAt x = g0.contentAt x := by
  intro bindings
  induction bindings with
  | nil =>
    intro g0 nm h _
    rw [List.foldlM_nil] at h
    injection h with h1
    rw [h1]
  | cons p t ih =>
    intro g0 nm h hx
    rw [List.foldlM_cons] at h
    simp only [List.map_cons, List.mem_cons] at hx
    push_neg at hx
    by_cases hp : p.1 ∈ g.nodeNames
    · rw [if_pos hp] at h
      simp only [Bind.bind, Except.bind] at h
      rw [ih _ _ h hx.2]
      exact applyBinding_contentAt_other g0 p.1 x p.2 hx.1
    · rw [if_neg hp] at h
      simp [Bind.bind, Except.bind] at h

theorem doFold_content (g : GraphicalModel) :
    ∀ (bindings : List (String × MLit)) (g0 nm : GraphicalModel)
    (name : String) (value : MLit),
    bindings.foldlM (fun nm p =>
      if p.1 ∈ g.nodeNames then Except.ok (nm.applyBinding p.1 p.2)
      else Except.error MErr.nameErrorFmt) g0 = .ok nm →
    (name, value) ∈ bindings →
    (bindings.map Prod.fst).Nodup →
    name ∈ g0.nodeNames →
    nm.contentAt name = some (.varC name (.constE value) false) := by
  intro bindings
  induction bindings with
  | nil =>
    intro g0 nm name value _ hmem _ _
    exact absurd hmem (List.not_mem_nil _)
  | cons p t ih =>
    intro g0 nm name value h hmem hnd hname
    rw [List.foldlM_cons] at h
    by_cases hp : p.1 ∈ g.nodeNames
    · rw [if_pos hp] at h
      simp only [Bind.bind, Except.bind] at h
      rcases List.mem_cons.mp hmem with hh | hh
      · subst hh
        have hnotin : ¬ name ∈ t.map Prod.fst := by
          simp only [List.map_cons, List.nodup_cons] at hnd
          exact hnd.1
        rw [doFold_content_pres g name t _ nm h hnotin]
        exact applyBinding_contentAt_self g0 name value hname
      · refine ih _ nm name value h hh ?_ ?_
        · rw [List.map_cons] at hnd
          exact (List.nodup_cons.mp hnd).2
        · rw [applyBinding_nodeNames]
          exact hname
    · rw [if_neg hp] at h
      simp [Bind.bind, Except.bind] at h

theorem doFold_edges_no_bound (g : GraphicalModel) :
    ∀ (bindings : List (String × MLit)) (g0 nm : GraphicalModel),
    bindings.foldlM (fun nm p =>
      if p.1 ∈ g.nodeNames then Except.ok (nm.applyBinding p.1 p.2)
      else Except.error MErr.nameErrorFmt) g0 = .ok nm →
    ∀ e ∈ nm.edges, e ∈ g0.edges ∧ ∀ p ∈ bindings, e.2 ≠ p.1 := by
  intro bindings
  induction bindings with
  | nil =>
    intro g0 nm h e he
    rw [List.foldlM_nil] at h
    injection h with h1
    subst h1
    exact ⟨he, fun p hp => absurd hp (List.not_mem_nil p)⟩
  | cons p t ih =>
    intro g0 nm h e he
    rw [List.foldlM_cons] at h
    by_cases hp : p.1 ∈ g.nodeNames
    · rw [if_pos hp] at h
      simp only [Bind.bind, Except.bind] at h
      have := ih _ nm h e he
      rw [applyBinding_edges] at this
      rcases this with ⟨hmem, hrest⟩
      rw [List.mem_filter] at hmem
      refine ⟨hmem.1, fun q hq => ?_⟩
      rcases List.mem_cons.mp hq with hh | hh
      · subst hh
        simpa using hmem.2
      · exact hrest q hh
    · rw [if_neg hp] at h
      simp [Bind.bind, Except.bind] at h

theorem growIter_subset (g : GraphicalModel) :
    ∀ (k : Nat) (seen : List String), seen ⊆ g.growIter k seen := by
  intro k
  induction k with
  | zero => intro seen; exact fun a ha => ha
  | succ k ih =>
    intro seen
    exact fun a ha => ih (g.growOnce seen) (growOnce_subset g seen ha)

theorem growIter_sound (g : GraphicalModel) (start : String) :
    ∀ (k : Nat) (seen : List String), (∀ x ∈ seen, g.connectedU start x) →
    ∀ x ∈ g.growIter k seen, g.connectedU start x := by
  intro k
  induction k with
  | zero => intro seen h x hx; exact h x hx
  | succ k ih =>
    intro seen h x hx
    refine ih (g.growOnce seen) ?_ x hx
    intro y hy
    exact growOnceFold_sound g start g.edges (fun e he => he) seen h y hy

theorem growIter_nodup (g : GraphicalModel) :
    ∀ (k : Nat) (seen : List String), seen.Nodup → (g.growIter k seen).Nodup := by
  intro k
  induction k with
  | zero => intro seen h; exact h
  | succ k ih =>
    intro seen h
    exact ih (g.growOnce seen) (growOnceFold_nodup g.edges seen h)

theorem growIter_endPoints (g : GraphicalModel) (start : String) :
    ∀ (k : Nat) (seen : List String), seen ⊆ g.endPoints start →
    g.growIter k seen ⊆ g.endPoints start := by
  intro k
  induction k with
  | zero => intro seen h; exact h
  | succ k ih =>
    intro seen h
    exact ih (g.growOnce seen)
      (growOnceFold_endPoints g start g.edges (fun e he => he) seen h)

theorem growIter_of_fix (g : GraphicalModel) (seen : List String)
    (hfix : g.growOnce seen = seen) : ∀ k, g.growIter k seen = seen := by
  intro k
  induction k with
  | zero => rfl
  | succ k ih =>
    show g.growIter k (g.growOnce seen) = seen
    rw [hfix]
    exact ih

theorem growOnce_ne_length (g : GraphicalModel) (seen : List String)
    (h : g.growOnce seen ≠ seen) :
    seen.length + 1 ≤ (g.growOnce seen).length := by
  obtain ⟨δ, hδ⟩ := growOnce_append g seen
  cases δ with
  | nil => exact absurd (by simpa using hδ) h
  | cons d ds =>
    rw [hδ]
    simp only [List.length_append, List.length_cons]
    omega

theorem growIter_closed (g : GraphicalModel) (start : String) :
    ∀ (k : Nat) (seen : List String), seen.Nodup → seen ⊆ g.endPoints start →
    (g.endPoints start).length + 1 ≤ k + seen.length →
    g.growOnce (g.growIter k seen) = g.growIter k seen := by
  intro k
  induction k with
  | zero =>
    intro seen hnd hsub hlen
    exfalso
    have := (List.subperm_of_subset hnd hsub).length_le
    omega
  | succ k ih =>
    intro seen hnd hsub hlen
    by_cases hfix : g.growOnce seen = seen
    · have h1 : g.growIter (k + 1) seen = seen := by
        show g.growIter k (g.growOnce seen) = seen
        rw [hfix]
        exact growIter_of_fix g seen hfix k
      rw [h1, hfix]
    · show g.growOnce (g.growIter k (g.growOnce seen)) = g.growIter k (g.growOnce seen)
      refine ih (g.growOnce seen) (growOnceFold_nodup g.edges seen hnd)
        (growOnceFold_endPoints g start g.edges (fun e he => he) seen hsub) ?_
      have := growOnce_ne_length g seen hfix
      omega

theorem endPoints_length (g : GraphicalModel) (start : String) :
    (g.endPoints start).length = 1 + 2 * g.edges.length := by
  unfold GraphicalModel.endPoints
  simp only [List.length_cons]
  have : ∀ l : List (String × String),
      (l.flatMap (fun e => [e.1, e.2])).length = 2 * l.length := by
    intro l
    induction l with
    | nil => rfl
    | cons e t iht => simp [List.flatMap_cons, iht]; omega
  rw [this]
  omega

theorem reachableU_sound (g : GraphicalModel) (start : String) :
    ∀ x ∈ g.reachableU start, g.connectedU start x := by
  intro x hx
  refine growIter_sound g start _ [start] ?_ x hx
  intro y hy
  rw [List.mem_singleton] at hy
  subst hy
  exact Relation.ReflTransGen.refl

theorem reachableU_mem_self (g : GraphicalModel) (start : String) :
    start ∈ g.reachableU start :=
  growIter_subset g _ [start] (List.mem_singleton_self start)

theorem reachableU_closed (g : GraphicalModel) (start : String) :
    ∀ e ∈ g.edges,
    (e.1 ∈ g.reachableU start → e.2 ∈ g.reachableU start)
    ∧ (e.2 ∈ g.reachableU start → e.1 ∈ g.reachableU start) := by
  have hfix : g.growOnce (g.reachableU start) = g.reachableU start := by
    refine growIter_closed g start (2 * g.edges.length + 1) [start]
      (List.nodup_singleton start) ?_ ?_
    · intro y hy
      rw [List.mem_singleton] at hy
      rw [hy]
      unfold GraphicalModel.endPoints
      exact List.mem_cons_self _ _
    · rw [endPoints_length]
      simp only [List.length_singleton]
      omega
  exact growOnceFold_fix g.edges (g.reachableU start) hfix

theorem reachableU_complete (g : GraphicalModel) (start m : String)
    (h : g.connectedU start m) : m ∈ g.reachableU start := by
  induction h with
  | refl => exact reachableU_mem_self g start
  | tail hsteps hadj ih =>
    rename_i b c
    rcases hadj with he | he
    · exact (reachableU_closed g start (b, c) he).1 ih
    · exact (reachableU_closed g start (c, b) he).2 ih

theorem adjU_symm (g : GraphicalModel) : Symmetric g.adjU := by
  intro a b h
  rcases h with h | h
  · exact Or.inr h
  · exact Or.inl h

theorem connectedU_symm (g : GraphicalModel) {a b : String}
    (h : g.connectedU a b) : g.connectedU b a :=
  Relation.ReflTransGen.symmetric (adjU_symm g) h

theorem connectedU_trans (g : GraphicalModel) {a b c : String}
    (h1 : g.connectedU a b) (h2 : g.connectedU b c) : g.connectedU a c :=
  Relation.ReflTransGen.trans h1 h2

theorem contentAt_filter_keep (P : String → Bool) (m : String) (hP : P m = true) :
    ∀ (l : List (String × Option NodeContent)),
    (l.filter (fun p => P p.1)).find? (fun p => p.1 = m)
      = l.find? (fun p => p.1 = m) := by
  intro l
  induction l with
  | nil => rfl
  | cons hd t ih =>
    by_cases hm : hd.1 = m
    · have hphd : P hd.1 = true := by rw [hm]; exact hP
      rw [List.filter_cons, if_pos hphd]
      rw [List.find?_cons_of_pos _ (by simpa using hm),
        List.find?_cons_of_pos _ (by simpa using hm)]
    · rw [List.filter_cons]
      by_cases hphd : P hd.1 = true
      · rw [if_pos hphd]
        rw [List.find?_cons_of_neg _ (by simpa using hm),
          List.find?_cons_of_neg _ (by simpa using hm)]
        exact ih
      · rw [if_neg hphd]
        rw [List.find?_cons_of_neg _ (by simpa using hm)]
        exact ih

theorem mem_prune_names (g : GraphicalModel) (n : String) :
    n ∈ g.pruneToReturned.nodeNames ↔ n ∈ g.nodeNames ∧ g.keepNode n = true := by
  unfold GraphicalModel.pruneToReturned GraphicalModel.nodeNames
  simp only [List.mem_map, List.mem_filter]
  constructor
  · rintro ⟨p, ⟨hp, hkp⟩, hpn⟩
    subst hpn
    exact ⟨⟨p, hp, rfl⟩, hkp⟩
  · rintro ⟨⟨p, hp, hpn⟩, hk⟩
    subst hpn
    exact ⟨p, ⟨hp, hk⟩, rfl⟩

theorem prune_contentAt (g : GraphicalModel) (n : String)
    (h : g.keepNode n = true) :
    g.pruneToReturned.contentAt n = g.contentAt n := by
  unfold GraphicalModel.pruneToReturned GraphicalModel.contentAt
  dsimp only
  rw [contentAt_filter_keep (fun x => g.keepNode x) n h g.nodes]

theorem prune_isReturnedAt (g : GraphicalModel) (m : String)
    (h : g.keepNode m = true) :
    g.pruneToReturned.isReturnedAt m = g.isReturnedAt m := by
  unfold GraphicalModel.isReturnedAt
  rw [prune_contentAt g m h]

theorem mem_prune_edges (g : GraphicalModel) (e : String × String) :
    e ∈ g.pruneToReturned.edges
      ↔ e ∈ g.edges ∧ g.keepNode e.1 = true ∧ g.keepNode e.2 = true := by
  unfold GraphicalModel.pruneToReturned
  simp [List.mem_filter]

theorem prune_connected (g : GraphicalModel) (n m : String)
    (hret : g.isReturnedAt m = true) (hc : g.connectedU n m) :
    g.pruneToReturned.connectedU n m := by
  have hkeep : ∀ p, g.connectedU p m → g.keepNode p = true := by
    intro p hp
    unfold GraphicalModel.keepNode
    rw [List.any_eq_true]
    exact ⟨m, reachableU_complete g p m hp, hret⟩
  induction hc using Relation.ReflTransGen.head_induction_on with
  | refl => exact Relation.ReflTransGen.refl
  | head hadj htail ih =>
    rename_i a b
    have hconn_b : g.connectedU b m := htail
    have hconn_a : g.connectedU a m := Relation.ReflTransGen.head hadj htail
    have hka : g.keepNode a = true := hkeep a hconn_a
    have hkb : g.keepNode b = true := hkeep b hconn_b
    refine Relation.ReflTransGen.head ?_ ih
    rcases hadj with he | he
    · exact Or.inl ((mem_prune_edges g (a, b)).mpr ⟨he, hka, hkb⟩)
    · exact Or.inr ((mem_prune_edges g (b, a)).mpr ⟨he, hkb, hka⟩)

/-- C3 (counterexample): on a one-node graph whose single node is returned,
`do` on that node replaces its content with a non-returned constant, after
which the whole (single) component contains no returned node and is pruned
— the result is the empty graph, so it does not contain the bound node with
a constant content, contradicting the claim as stated. -/
theorem c3_do_claim_fails :
    ¬ claimC3At ⟨"m", [("x", some (.varC "x" (.constE (.intL 0)) true))], []⟩
      [("x", .intL 5)] "x" (.intL 5) := by
  unfold claimC3At
  decide

/-- C3 (amended): for bindings with distinct names all naming nodes of the
graph, `do` succeeds; if the bound node survives the component pruning, its
content in the result is a `Constant` holding the bound value (not
returned) and it has no incoming edges; and every surviving node lies in a
weakly connected component of the result that contains at least one
returned node.  (The bound node itself may be pruned away: clearing its
returned flag can leave its component with no returned node, as the
counterexample shows.) -/
theorem c3_do_intervention (g : GraphicalModel) (bindings : List (String × MLit))
    (name : String) (value : MLit)
    (hall : ∀ p ∈ bindings, p.1 ∈ g.nodeNames)
    (hnd : (bindings.map Prod.fst).Nodup)
    (hmem : (name, value) ∈ bindings) :
    ∃ r, g.doPure bindings = .ok r
    ∧ (name ∈ r.nodeNames →
        r.contentAt name = some (.varC name (.constE value) false)
        ∧ r.predsOf name = [])
    ∧ ∀ n ∈ r.nodeNames, ∃ m, r.connectedU n m ∧ r.isReturnedAt m = true := by
  obtain ⟨nm, hnm⟩ := doFold_ok g bindings g hall
  refine ⟨nm.pruneToReturned, ?_, ?_, ?_⟩
  · unfold GraphicalModel.doPure
    rw [hnm]
    rfl
  · intro hmemr
    have hkeep : nm.keepNode name = true := ((mem_prune_names nm name).mp hmemr).2
    constructor
    · rw [prune_contentAt nm name hkeep]
      exact doFold_content g bindings g nm name value hnm hmem hnd (hall _ hmem)
    · unfold GraphicalModel.predsOf GraphicalModel.pruneToReturned
      dsimp only
      rw [List.filter_filter]
      have hnone : ∀ e ∈ nm.edges,
          ¬ (decide (e.2 = name) && (nm.keepNode e.1 && nm.keepNode e.2)) = true := by
        intro e he hcon
        have hbound := (doFold_edges_no_bound g bindings g nm hnm e he).2 _ hmem
        simp only [Bool.and_eq_true, decide_eq_true_eq] at hcon
        exact hbound hcon.1
      rw [List.filter_eq_nil_iff.mpr hnone]
      rfl
  · intro n hn
    have hkeepn : nm.keepNode n = true := ((mem_prune_names nm n).mp hn).2
    unfold GraphicalModel.keepNode at hkeepn
    rw [List.any_eq_true] at hkeepn
    obtain ⟨m, hm, hret⟩ := hkeepn
    have hconn : nm.connectedU n m := reachableU_sound nm n m hm
    have hkeepm : nm.keepNode m = true := by
      unfold GraphicalModel.keepNode
      rw [List.any_eq_true]
      exact ⟨m, reachableU_mem_self nm m, hret⟩
    refine ⟨m, prune_connected nm n m hret hconn, ?_⟩
    rw [prune_isReturnedAt nm m hkeepm]
    exact hret

/-- C3 (witness): the amended theorem evaluated on a two-node graph
`a → b` with `b` returned, binding `a := 5`. -/
theorem c3_do_intervention_witness :
    ∃ r, GraphicalModel.doPure
      ⟨"m", [("a", some (.varC "a" (.constE (.intL 1)) false)),
             ("b", some (.varC "b" (.constE (.intL 2)) true))],
        [("a", "b")]⟩ [("a", .intL 5)] = .ok r
    ∧ ("a" ∈ r.nodeNames →
        r.contentAt "a" = some (.varC "a" (.constE (.intL 5)) false)
        ∧ r.predsOf "a" = [])
    ∧ ∀ n ∈ r.nodeNames, ∃ m, r.connectedU n m ∧ r.isReturnedAt m = true :=
  c3_do_intervention
    ⟨"m", [("a", some (.varC "a" (.constE (.intL 1)) false)),
           ("b", some (.varC "b" (.constE (.intL 2)) true))],
      [("a", "b")]⟩ [("a", .intL 5)] "a" (.intL 5)
    (by decide) (by decide) (by decide)

theorem compileStmts_eq (g : CGraph) :
    ∀ (l : List (Nat × CNode)) (acc out : List CStmt × List CStmt),
    l.foldlM (compileStep g) acc = Except.ok out →
    out.1 = acc.1 ++ l.filterMap (fun p => emitStmt g p)
    ∧ out.2 = acc.2 ++ l.filterMap emitRet := by
  intro l
  induction l with
  | nil =>
    intro acc out h
    rw [List.foldlM_nil] at h
    injection h with h1
    subst h1
    simp
  | cons hd t ih =>
    intro acc out h
    rw [List.foldlM_cons] at h
    obtain ⟨i, nd⟩ := hd
    cases nd with
    | constant cn v r =>
      cases cn with
      | some n =>
        simp only [compileStep, Bind.bind, Except.bind] at h
        have := ih _ _ h
        simpa [emitStmt, emitRet] using this
      | none =>
        simp only [compileStep, Bind.bind, Except.bind] at h
        have := ih _ _ h
        simpa [emitStmt, emitRet] using this
    | op onm opId r =>
      cases onm with
      | some n =>
        simp only [compileStep] at h
        cases hop : compileOp g i with
        | ok e =>
          rw [hop] at h
          simp only [Bind.bind, Except.bind] at h
          have := ih _ _ h
          cases r with
          | true => simpa [emitStmt, emitRet, hop] using this
          | false => simpa [emitStmt, emitRet, hop] using this
        | error er =>
          rw [hop] at h
          simp only [Bind.bind, Except.bind] at h
          exact absurd h (by
            clear h
            induction t generalizing acc with
            | nil => intro hcon; simp [List.foldlM_nil] at hcon
            | cons h2 t2 ih2 =>
              intro hcon
              simp [List.foldlM_cons, Bind.bind, Except.bind] at hcon)
      | none =>
        simp only [compileStep, Bind.bind, Except.bind] at h
        have := ih _ _ h
        simpa [emitStmt, emitRet] using this
    | placeholder pn rv hdef pr =>
      simp only [compileStep, Bind.bind, Except.bind] at h
      have := ih _ _ h
      simpa [emitStmt, emitRet] using this

theorem filterMap_pair_snd (g : CGraph) :
    ∀ (l : List (Nat × CNode)),
    ((l.filterMap (fun p => (emitStmt g p).map (fun st => (p.1, st)))).map Prod.snd)
      = l.filterMap (fun p => emitStmt g p) := by
  intro l
  induction l with
  | nil => rfl
  | cons hd t ih =>
    rw [List.filterMap_cons, List.filterMap_cons]
    cases hst : emitStmt g hd with
    | none => simpa using ih
    | some st => simpa using ih

theorem compileStmts_idx (g : CGraph) (stmts rets : List CStmt)
    (h : compileStmts g = Except.ok (stmts, rets)) :
    stmts = (idxStmts g).map Prod.snd
    ∧ rets = g.nodes.enum.filterMap emitRet := by
  have := compileStmts_eq g g.nodes.enum ([], []) (stmts, rets) h
  simp only [List.nil_append] at this
  refine ⟨?_, this.2⟩
  rw [this.1]
  unfold idxStmts
  rw [filterMap_pair_snd]

theorem addArgSlots_values (predAst : CExpr) (out : List (Nat × CExpr)) :
    ∀ (positions : List Nat) (oa : List (Nat × CExpr)),
    addArgSlots positions predAst oa = .ok out →
    ∀ q ∈ out, q ∈ oa ∨ q.2 = predAst := by
  intro positions
  induction positions with
  | nil =>
    intro oa h q hq
    unfold addArgSlots at h
    rw [List.foldlM_nil] at h
    injection h with h1
    subst h1
    exact Or.inl hq
  | cons hd t ih =>
    intro oa h q hq
    unfold addArgSlots at h
    rw [List.foldlM_cons] at h
    by_cases hmem : oa.any (fun p => p.1 = hd)
    · rw [if_pos hmem] at h
      simp [Bind.bind, Except.bind] at h
    · rw [if_neg hmem] at h
      simp only [Bind.bind, Except.bind] at h
      rcases ih (oa ++ [(hd, predAst)]) h q hq with hin | hval
      · rcases List.mem_append.mp hin with hin2 | hin2
        · exact Or.inl hin2
        · rw [List.mem_singleton] at hin2
          subst hin2
          exact Or.inr rfl
      · exact Or.inr hval

theorem insertKw_values (kw : List (String × CExpr)) (k : String) (v : CExpr) :
    ∀ q ∈ insertKw kw k v, q ∈ kw ∨ q.2 = v := by
  intro q hq
  unfold insertKw at hq
  split at hq
  · rcases List.mem_map.mp hq with ⟨p, hp, hpq⟩
    by_cases hpk : p.1 = k
    · rw [if_pos hpk] at hpq
      subst hpq
      exact Or.inr rfl
    · rw [if_neg hpk] at hpq
      subst hpq
      exact Or.inl hp
  · rcases List.mem_append.mp hq with h | h
    · exact Or.inl h
    · rw [List.mem_singleton] at h
      subst h
      exact Or.inr rfl

theorem foldKw_values (v : CExpr) :
    ∀ (keys : List String) (kw : List (String × CExpr)),
    ∀ q ∈ keys.foldl (fun kw k => insertKw kw k v) kw, q ∈ kw ∨ q.2 = v := by
  intro keys
  induction keys with
  | nil => intro kw q hq; exact Or.inl hq
  | cons k t ih =>
    intro kw q hq
    rw [List.foldl_cons] at hq
    rcases ih (insertKw kw k v) q hq with h | h
    · exact insertKw_values kw k v q h
    · exact Or.inr h

theorem predStep_values (g : CGraph) (rec : Nat → Except CErr CExpr)
    (P : CExpr → Prop) (e : CEdge)
    (hnamed : ∀ n, (g.nodeAt e.src).nameOf = some n → P (.nameRef n))
    (hrec : (g.nodeAt e.src).nameOf = none → ∀ pa, rec e.src = .ok pa → P pa)
    (acc acc2 : List (Nat × CExpr) × List (String × CExpr))
    (hacc1 : ∀ q ∈ acc.1, P q.2) (hacc2 : ∀ q ∈ acc.2, P q.2)
    (h : predStep g rec acc e = .ok acc2) :
    (∀ q ∈ acc2.1, P q.2) ∧ (∀ q ∈ acc2.2, P q.2) := by
  unfold predStep at h
  have main : ∀ (pa : CExpr), P pa →
      (match e.data with
        | .argE positions => do
            let oa ← addArgSlots positions pa acc.1
            Except.ok (oa, acc.2)
        | .kwE keys =>
            Except.ok (acc.1, keys.foldl (fun kw k => insertKw kw k pa) acc.2))
        = Except.ok acc2 →
      (∀ q ∈ acc2.1, P q.2) ∧ (∀ q ∈ acc2.2, P q.2) := by
    intro pa hpa hm
    cases hd : e.data with
    | argE positions =>
      rw [hd] at hm
      dsimp only at hm
      cases has : addArgSlots positions pa acc.1 with
      | ok oa =>
        rw [has] at hm
        simp only [Bind.bind, Except.bind] at hm
        injection hm with hacc
        subst hacc
        refine ⟨fun q hq => ?_, hacc2⟩
        rcases addArgSlots_values pa oa positions acc.1 has q hq with hin | hval
        · exact hacc1 q hin
        · rw [hval]; exact hpa
      | error c2 =>
        rw [has] at hm
        simp [Bind.bind, Except.bind] at hm
    | kwE keys =>
      rw [hd] at hm
      dsimp only at hm
      injection hm with hacc
      subst hacc
      refine ⟨hacc1, fun q hq => ?_⟩
      rcases foldKw_values pa keys acc.2 q hq with hin | hval
      · exact hacc2 q hin
      · rw [hval]; exact hpa
  cases hn : (g.nodeAt e.src).nameOf with
  | some n =>
    rw [hn] at h
    simp only [Bind.bind, Except.bind] at h
    exact main (CExpr.nameRef n) (hnamed n hn) h
  | none =>
    rw [hn] at h
    cases hrc : rec e.src with
    | ok pa =>
      rw [hrc] at h
      simp only [Bind.bind, Except.bind] at h
      exact main pa (hrec hn pa hrc) h
    | error cw =>
      rw [hrc] at h
      simp [Bind.bind, Except.bind] at h

theorem predFold_values (g : CGraph) (rec : Nat → Except CErr CExpr)
    (P : CExpr → Prop) :
    ∀ (l : List CEdge),
    (∀ e ∈ l, (∀ n, (g.nodeAt e.src).nameOf = some n → P (.nameRef n))
      ∧ ((g.nodeAt e.src).nameOf = none → ∀ pa, rec e.src = .ok pa → P pa)) →
    ∀ (acc out : List (Nat × CExpr) × List (String × CExpr)),
    (∀ q ∈ acc.1, P q.2) → (∀ q ∈ acc.2, P q.2) →
    l.foldlM (predStep g rec) acc = .ok out →
    (∀ q ∈ out.1, P q.2) ∧ (∀ q ∈ out.2, P q.2) := by
  intro l
  induction l with
  | nil =>
    intro _ acc out h1 h2 h
    rw [List.foldlM_nil] at h
    injection h with hh
    subst hh
    exact ⟨h1, h2⟩
  | cons e t ih =>
    intro hl acc out h1 h2 h
    rw [List.foldlM_cons] at h
    cases hstep : predStep g rec acc e with
    | ok acc2 =>
      rw [hstep] at h
      simp only [Bind.bind, Except.bind] at h
      have he := hl e (List.mem_cons_self e t)
      have hstepv := predStep_values g rec P e he.1 he.2 acc acc2 h1 h2 hstep
      exact ih (fun e2 he2 => hl e2 (List.mem_cons_of_mem e he2)) acc2 out
        hstepv.1 hstepv.2 h
    | error c =>
      rw [hstep] at h
      simp [Bind.bind, Except.bind] at h

theorem mem_freeNames_call (n : String) (opId : Nat) (args : List CExpr)
    (kw : List (String × CExpr)) :
    n ∈ (CExpr.callE opId args kw).freeNames
      ↔ (∃ x ∈ args, n ∈ x.freeNames) ∨ (∃ q ∈ kw, n ∈ q.2.freeNames) := by
  rw [CExpr.freeNames]
  simp [List.mem_flatMap, List.mem_attach, Subtype.exists]

theorem compileOpF_freeNames (g : CGraph) (hok : g.edgesOk) :
    ∀ (fuel v : Nat) (e : CExpr), compileOpF g fuel v = .ok e →
    ((g.nodeAt v).nameOf = none ∨ (g.nodeAt v).isOpN = true) →
    ∀ n ∈ e.freeNames, ∃ u, u < v ∧ (g.nodeAt u).nameOf = some n := by
  intro fuel
  induction fuel with
  | zero =>
    intro v e h
    exact absurd h (by simp [compileOpF])
  | succ fuel ih =>
    intro v e h hcond n hn
    rw [compileOpF_succ] at h
    cases hfold : (g.predEdges v).foldlM (predStep g (compileOpF g fuel)) ([], []) with
    | error c =>
      rw [hfold] at h
      simp [Except.bind] at h
    | ok acc =>
      rw [hfold] at h
      simp only [Except.bind] at h
      injection h with he
      have hinv := predFold_values g (compileOpF g fuel)
        (fun ex => ∀ m ∈ ex.freeNames, ∃ u, u < v ∧ (g.nodeAt u).nameOf = some m)
        (g.predEdges v)
        (fun e2 he2 => by
          have hsrc : e2.src < v := predEdges_src_lt g hok v e2 he2
          constructor
          · intro m hm m2 hm2
            rw [CExpr.freeNames] at hm2
            rw [List.mem_singleton] at hm2
            subst hm2
            exact ⟨e2.src, hsrc, hm⟩
          · intro hnone pa hpa m hm
            obtain ⟨u, hu, hun⟩ := ih e2.src pa hpa (Or.inl hnone) m hm
            exact ⟨u, Nat.lt_trans hu hsrc, hun⟩)
        ([], []) acc (by simp) (by simp) hfold
      subst he
      cases hnd : g.nodeAt v with
      | constant cn v2 r =>
        rw [hnd] at hn
        unfold nodeGen at hn
        rw [CExpr.freeNames] at hn
        exact absurd hn (List.not_mem_nil n)
      | op onm opId r =>
        rw [hnd] at hn
        unfold nodeGen at hn
        rcases (mem_freeNames_call n opId _ _).mp hn with ⟨x, hx, hnx⟩ | ⟨q, hq, hnq⟩
        · rcases List.mem_map.mp hx with ⟨p, hp, hpx⟩
          have hpmem : p ∈ acc.1 :=
            (List.Perm.mem_iff (List.perm_insertionSort _ acc.1)).mp hp
          subst hpx
          exact hinv.1 p hpmem n hnx
        · exact hinv.2 q hq n hnq
      | placeholder pn rv hd pr =>
        exfalso
        rcases hcond with hc | hc
        · rw [hnd] at hc
          simp [CNode.nameOf] at hc
        · rw [hnd] at hc
          simp [CNode.isOpN] at hc

theorem nodeAt_eq_get (g : CGraph) (i : Nat) (h : i < g.nodes.length) :
    g.nodeAt i = g.nodes.get ⟨i, h⟩ := by
  unfold CGraph.nodeAt
  rw [List.getD_eq_getElem g.nodes _ h]
  rfl

theorem emitStmt_refs (g : CGraph) (hok : g.edgesOk) (i : Nat) (st : CStmt)
    (h : emitStmt g (i, g.nodeAt i) = some st) :
    (∀ n, st.targetName = some n → (g.nodeAt i).nameOf = some n)
    ∧ (∀ n ∈ st.refNames, ∃ u, u < i ∧ (g.nodeAt u).nameOf = some n) := by
  unfold emitStmt at h
  cases hnd : g.nodeAt i with
  | constant cn v r =>
    rw [hnd] at h
    cases cn with
    | some m =>
      dsimp only at h
      injection h with hst
      subst hst
      constructor
      · intro n hn
        simp only [CStmt.targetName] at hn
        injection hn with hnm
        subst hnm
        rfl
      · intro n hn
        simp only [CStmt.refNames] at hn
        rw [CExpr.freeNames] at hn
        exact absurd hn (List.not_mem_nil n)
    | none => exact absurd h (by simp)
  | op onm opId r =>
    rw [hnd] at h
    cases onm with
    | some m =>
      dsimp only at h
      cases hop : compileOp g i with
      | ok e =>
        rw [hop] at h
        injection h with hst
        subst hst
        constructor
        · intro n hn
          simp only [CStmt.targetName] at hn
          injection hn with hnm
          subst hnm
          rfl
        · intro n hn
          simp only [CStmt.refNames] at hn
          exact compileOpF_freeNames g hok (i + 1) i e hop
            (Or.inr (by rw [hnd]; rfl)) n hn
      | error c =>
        rw [hop] at h
        exact absurd h (by simp)
    | none => exact absurd h (by simp)
  | placeholder pn rv hd pr =>
    rw [hnd] at h
    exact absurd h (by simp)

theorem emitRet_target (p : Nat × CNode) (st : CStmt) (h : emitRet p = some st) :
    st.targetName = none := by
  unfold emitRet at h
  rcases p with ⟨i, nd⟩
  cases nd with
  | constant cn v r => exact absurd h (by simp)
  | op onm opId r =>
    cases onm with
    | some n =>
      dsimp only at h
      cases r with
      | true =>
        rw [if_pos rfl] at h
        injection h with hst
        subst hst
        rfl
      | false => exact absurd h (by simp)
    | none => exact absurd h (by simp)
  | placeholder pn rv hd pr => exact absurd h (by simp)

theorem nodup_names_index_inj :
    ∀ (l : List CNode), (l.filterMap CNode.nameOf).Nodup →
    ∀ (u w : Nat) (hu : u < l.length) (hw : w < l.length) (n : String),
    (l.get ⟨u, hu⟩).nameOf = some n → (l.get ⟨w, hw⟩).nameOf = some n → u = w := by
  intro l
  induction l with
  | nil =>
    intro _ u w hu
    exact absurd hu (by simp)
  | cons hd t ih =>
    intro hnd u w hu hw n hun hwn
    have htail : (t.filterMap CNode.nameOf).Nodup := by
      cases hh : hd.nameOf with
      | some b =>
        rw [List.filterMap_cons_some hh] at hnd
        exact (List.nodup_cons.mp hnd).2
      | none =>
        rw [List.filterMap_cons_none hh] at hnd
        exact hnd
    cases u with
    | zero =>
      cases w with
      | zero => rfl
      | succ w2 =>
        exfalso
        have hhd : hd.nameOf = some n := hun
        have hw2 : w2 < t.length := Nat.lt_of_succ_lt_succ hw
        have htw : (t.get ⟨w2, hw2⟩).nameOf = some n := hwn
        have hmem : n ∈ t.filterMap CNode.nameOf :=
          List.mem_filterMap.mpr ⟨t.get ⟨w2, hw2⟩, List.get_mem t _ _, htw⟩
        rw [List.filterMap_cons_some hhd] at hnd
        exact (List.nodup_cons.mp hnd).1 hmem
    | succ u2 =>
      cases w with
      | zero =>
        exfalso
        have hhd : hd.nameOf = some n := hwn
        have hu2 : u2 < t.length := Nat.lt_of_succ_lt_succ hu
        have htu : (t.get ⟨u2, hu2⟩).nameOf = some n := hun
        have hmem : n ∈ t.filterMap CNode.nameOf :=
          List.mem_filterMap.mpr ⟨t.get ⟨u2, hu2⟩, List.get_mem t _ _, htu⟩
        rw [List.filterMap_cons_some hhd] at hnd
        exact (List.nodup_cons.mp hnd).1 hmem
      | succ w2 =>
        have := ih htail u2 w2 (Nat.lt_of_succ_lt_succ hu) (Nat.lt_of_succ_lt_succ hw)
          n hun hwn
        omega

theorem idxStmts_pairwise (g : CGraph) :
    (idxStmts g).Pairwise (fun a b => a.1 < b.1) := by
  unfold idxStmts
  rw [List.pairwise_filterMap]
  have henum : g.nodes.enum.Pairwise (fun p q : Nat × CNode => p.1 < q.1) := by
    have hr := List.pairwise_lt_range g.nodes.length
    rw [← List.enum_map_fst g.nodes, List.pairwise_map] at hr
    exact hr
  refine henum.imp ?_
  intro p q hpq x hx y hy
  cases hep : emitStmt g p with
  | none => rw [hep] at hx; exact absurd hx (by simp)
  | some st1 =>
    rw [hep] at hx
    simp only [Option.map_some, Option.mem_def] at hx
    injection hx with hx1
    cases heq : emitStmt g q with
    | none => rw [heq] at hy; exact absurd hy (by simp)
    | some st2 =>
      rw [heq] at hy
      simp only [Option.map_some, Option.mem_def] at hy
      injection hy with hy1
      rw [← hx1, ← hy1]
      exact hpq

theorem idxStmts_entry (g : CGraph) :
    ∀ ip ∈ idxStmts g, ip.1 < g.nodes.length
      ∧ emitStmt g (ip.1, g.nodeAt ip.1) = some ip.2 := by
  intro ip hip
  unfold idxStmts at hip
  rcases List.mem_filterMap.mp hip with ⟨p, hp, hF⟩
  cases hep : emitStmt g p with
  | none => rw [hep] at hF; exact Option.noConfusion hF
  | some st =>
    rw [hep] at hF
    have hF1 : (p.1, st) = ip := by
      have : Option.some (p.1, st) = some ip := hF
      injection this
    obtain ⟨i, nd⟩ := p
    have hget : g.nodes[i]? = some nd := List.mk_mem_enum_iff_getElem?.mp hp
    have hlen : i < g.nodes.length := by
      rcases List.getElem?_eq_some_iff.mp hget with ⟨hl, _⟩
      exact hl
    have hnode : g.nodeAt i = nd := by
      rw [nodeAt_eq_get g i hlen]
      rcases List.getElem?_eq_some_iff.mp hget with ⟨hl, hv⟩
      exact hv
    rw [← hF1]
    exact ⟨hlen, by rw [hnode]; exact hep⟩

/-- C4: the statement list emitted by the compiler is a valid evaluation
order.  For a graph whose edge indices respect the node-list (topological)
order and whose node names are distinct, whenever a statement of the
compiled body binds a name, every statement that references that name (in
the right-hand side of a binding, or as a returned value) appears strictly
later in the body — no name is referenced before the statement that binds
it. -/
theorem c4_valid_order (g : CGraph) (hok : g.edgesOk)
    (hnames : (g.nodes.filterMap CNode.nameOf).Nodup)
    (body : List CStmt) (hbody : compileBody g = Except.ok body) :
    ∀ (j : Nat) (hj : j < body.length) (n : String),
      (body.get ⟨j, hj⟩).targetName = some n →
      ∀ (i : Nat) (hi : i < body.length),
        n ∈ (body.get ⟨i, hi⟩).refNames → j < i := by
  unfold compileBody at hbody
  cases hcs : compileStmts g with
  | error c =>
    rw [hcs] at hbody
    exact absurd hbody (by simp [Except.map])
  | ok pr =>
    obtain ⟨stmts, rets⟩ := pr
    rw [hcs] at hbody
    simp only [Except.map] at hbody
    injection hbody with hb
    subst hb
    rcases compileStmts_idx g stmts rets hcs with ⟨hst, hrt⟩
    subst hst
    subst hrt
    have hlenst : ((idxStmts g).map Prod.snd).length = (idxStmts g).length :=
      List.length_map _ _
    intro j hj n htgt i hi href
    have hjlt : j < (idxStmts g).length := by
      by_contra hge
      push_neg at hge
      have hge2 : ((idxStmts g).map Prod.snd).length ≤ j := by
        rw [hlenst]; exact hge
      have hjr : j - ((idxStmts g).map Prod.snd).length
          < (g.nodes.enum.filterMap emitRet).length := by
        rw [List.length_append] at hj
        omega
      have hbj : ((idxStmts g).map Prod.snd ++ g.nodes.enum.filterMap emitRet).get
            ⟨j, hj⟩
          = (g.nodes.enum.filterMap emitRet).get
            ⟨j - ((idxStmts g).map Prod.snd).length, hjr⟩ := by
        simp only [List.get_eq_getElem]
        rw [List.getElem_append_right hge2]
      have hmem : (g.nodes.enum.filterMap emitRet).get
            ⟨j - ((idxStmts g).map Prod.snd).length, hjr⟩
          ∈ g.nodes.enum.filterMap emitRet := List.get_mem _ _ _
      rcases List.mem_filterMap.mp hmem with ⟨p, _, hp⟩
      have hnone := emitRet_target p _ hp
      rw [hbj] at htgt
      rw [hnone] at htgt
      exact Option.noConfusion htgt
    have hbj : ((idxStmts g).map Prod.snd ++ g.nodes.enum.filterMap emitRet).get
          ⟨j, hj⟩
        = ((idxStmts g).get ⟨j, hjlt⟩).2 := by
      simp only [List.get_eq_getElem]
      rw [List.getElem_append_left (by rw [hlenst]; exact hjlt)]
      simp [List.getElem_map]
    rw [hbj] at htgt
    have hjmem : (idxStmts g).get ⟨j, hjlt⟩ ∈ idxStmts g := List.get_mem _ _ _
    rcases idxStmts_entry g _ hjmem with ⟨haj, hemitj⟩
    rcases emitStmt_refs g hok _ _ hemitj with ⟨hTj, _⟩
    have hnamej : (g.nodeAt ((idxStmts g).get ⟨j, hjlt⟩).1).nameOf = some n :=
      hTj n htgt
    by_cases hilt2 : i < ((idxStmts g).map Prod.snd).length
    · have hiL : i < (idxStmts g).length := by rw [← hlenst]; exact hilt2
      have hbi : ((idxStmts g).map Prod.snd ++ g.nodes.enum.filterMap emitRet).get
            ⟨i, hi⟩
          = ((idxStmts g).get ⟨i, hiL⟩).2 := by
        simp only [List.get_eq_getElem]
        rw [List.getElem_append_left hilt2]
        simp [List.getElem_map]
      rw [hbi] at href
      have himem : (idxStmts g).get ⟨i, hiL⟩ ∈ idxStmts g := List.get_mem _ _ _
      rcases idxStmts_entry g _ himem with ⟨hai, hemiti⟩
      rcases emitStmt_refs g hok _ _ hemiti with ⟨_, hRi⟩
      rcases hRi n href with ⟨u, hult, hnameu⟩
      have huL : u < g.nodes.length := Nat.lt_trans hult hai
      have h1 : (g.nodes.get ⟨u, huL⟩).nameOf = some n := by
        rw [← nodeAt_eq_get]; exact hnameu
      have h2 : (g.nodes.get ⟨((idxStmts g).get ⟨j, hjlt⟩).1, haj⟩).nameOf
          = some n := by
        rw [← nodeAt_eq_get]; exact hnamej
      have hueq : u = ((idxStmts g).get ⟨j, hjlt⟩).1 :=
        nodup_names_index_inj g.nodes hnames u _ huL haj n h1 h2
      have hajlt : ((idxStmts g).get ⟨j, hjlt⟩).1
          < ((idxStmts g).get ⟨i, hiL⟩).1 := by
        rw [← hueq]; exact hult
      rcases Nat.lt_trichotomy j i with h | h | h
      · exact h
      · exfalso
        subst h
        exact absurd hajlt (lt_irrefl _)
      · exfalso
        have hpw := (List.pairwise_iff_get.mp (idxStmts_pairwise g))
          ⟨i, hiL⟩ ⟨j, hjlt⟩ (Fin.mk_lt_mk.mpr h)
        omega
    · push_neg at hilt2
      rw [hlenst] at hilt2
      omega

theorem c4_valid_order_witness :
    compileBody ⟨[.constant (some "a") (.intL 2) false, .op (some "b") 7 true],
        [⟨0, 1, .argE [0]⟩]⟩
      = Except.ok [CStmt.assign "a" (.litE (.intL 2)),
          CStmt.assign "b" (.callE 7 [.nameRef "a"] []), CStmt.ret "b"]
    ∧ (0 : Nat) < 1 :=
  ⟨rfl,
   c4_valid_order
     ⟨[.constant (some "a") (.intL 2) false, .op (some "b") 7 true],
       [⟨0, 1, .argE [0]⟩]⟩
     (by decide) (by decide)
     [CStmt.assign "a" (.litE (.intL 2)),
      CStmt.assign "b" (.callE 7 [.nameRef "a"] []), CStmt.ret "b"]
     rfl
     0 (by decide) "a" rfl
     1 (by decide)
     (by
       show "a" ∈ (CExpr.callE 7 [.nameRef "a"] []).freeNames
       exact (mem_freeNames_call "a" 7 _ _).mpr
         (Or.inl ⟨.nameRef "a", by simp, by rw [CExpr.freeNames]; simp⟩))⟩
